import Mathlib

/-!
Verification development for the dependency-ordered parallel build scheduler
of flatpak-module-tools.

The definitions below are a shallow embedding of the Python source:

* `src/flatpak_module_tools/build_scheduler.py` — the `BuildScheduler` class
  (states, `update_running_items`, `update_item`, `run_build_item`, `do_build`)
  and the `RepoWaiter` class;
* `src/flatpak_module_tools/rpm_builder.py` — `check_for_cycles` and the tail
  of `RpmBuilder._compute_build_order`.

The scheduler runs on a single-threaded asyncio event loop.  We embed it as a
state machine: the scheduler state Sched carries the item table, the slot
array, and the bookkeeping of spawned build tasks, and each event of the
inductive type `Ev` is one of the synchronous segments that the event loop can
execute between awaits.  Python dictionaries preserve insertion order, so the
item table and the build_after mapping are embedded as ordered association
lists with unique keys.
-/

namespace FMT

/-- States of a build item, from the `State` enum of build_scheduler.py. -/
inductive BState where
  | waiting
  | ready
  | building
  | done
  | failed
deriving DecidableEq, Repr

/-- A build item: the fields of the `BuildItem` dataclass that the scheduler
core reads or writes.  The log/task display fields play no role in the
scheduling logic and are omitted. -/
structure BuildItem where
  name : String
  state : BState
  status : String
deriving DecidableEq, Repr

/-- Embedding of `self.build_after.get(name, ())`: the build_after mapping is
an insertion-ordered association list. -/
def lookupAfter (ba : List (String × List String)) (n : String) : List String :=
  match ba.find? (fun p => decide (p.1 = n)) with
  | some p => p.2
  | none => []

/-- Embedding of `self.items.get(n)` on the insertion-ordered item table. -/
def findItem (items : List BuildItem) (n : String) : Option BuildItem :=
  items.find? (fun it => decide (it.name = n))

/-- Embedding of the `not_ready` list comprehension of `update_running_items`
(lines 157-161): the names among `build_after[n]` that are present in the item
table with a state other than DONE.  Names absent from the table are skipped
by the `if other` filter. -/
def notReadyIn (ba : List (String × List String)) (items : List BuildItem)
    (n : String) : List String :=
  (lookupAfter ba n).filterMap (fun dep =>
    match findItem items dep with
    | some other => if other.state ≠ BState.done then some other.name else none
    | none => none)

/-- Status text `f"Waiting for: {' '.join(not_ready)}"`. -/
def waitingMsg (nr : List String) : String :=
  "Waiting for: " ++ String.intercalate " " nr

/-- One iteration of the first loop of `update_running_items` for one item,
parameterized by `cur`, the item table the iteration observes.  A WAITING item
with no unmet present dependency becomes READY with status "Ready"; a WAITING
item with unmet dependencies keeps its state and gets the waiting status; all
other items are untouched by this loop (the BUILDING branch only counts). -/
def scanOne (ba : List (String × List String)) (cur : List BuildItem)
    (it : BuildItem) : BuildItem :=
  if it.state = BState.waiting then
    let nr := notReadyIn ba cur it.name
    if nr.isEmpty then { it with state := BState.ready, status := "Ready" }
    else { it with status := waitingMsg nr }
  else it

/-- The first loop of `update_running_items` (lines 154-168).  The Python loop
mutates the items in place while iterating, so an iteration observes the
already-updated earlier items together with the not-yet-updated rest; `prev`
accumulates the updated prefix.  Lemma `scanLoop_eq_map` below shows this
equals an independent per-item map, because the loop never creates or destroys
a DONE state. -/
def scanLoop (ba : List (String × List String)) :
    List BuildItem → List BuildItem → List BuildItem
  | prev, [] => prev
  | prev, it :: rest =>
      scanLoop ba (prev ++ [scanOne ba (prev ++ it :: rest) it]) rest

/-- Number of items counted by the `num_building` accumulator of the first
loop of `update_running_items`. -/
def numBuilding (items : List BuildItem) : Nat :=
  (items.filter (fun it => decide (it.state = BState.building))).length

/-- The second loop of `update_running_items` (lines 170-174): walk the items
in order and, while the building count is strictly below `parallel_jobs`, move
each READY item to BUILDING and spawn its `run_build_item` task.  Returns the
updated item list together with the names whose tasks were spawned. -/
def promoteLoop (pj : Nat) : Nat → List BuildItem → List BuildItem × List String
  | _, [] => ([], [])
  | nb, it :: rest =>
      if nb < pj ∧ it.state = BState.ready then
        let r := promoteLoop pj (nb + 1) rest
        ({ it with state := BState.building } :: r.1, it.name :: r.2)
      else
        let r := promoteLoop pj nb rest
        (it :: r.1, r.2)

/-- Scheduler state.  `items` and `buildAfter` embed the instance fields of
`BuildScheduler`; `slots` is the boolean occupancy array; `pending` holds the
names whose `run_build_item` task has been created but has not yet run its
first synchronous segment (slot allocation); `holding` maps each name whose
task is between slot allocation and task completion to the slot index it
holds.  `self.running` of the Python code corresponds to `pending` plus
`holding`. -/
structure Sched where
  buildAfter : List (String × List String)
  parallelJobs : Nat
  items : List BuildItem
  slots : List Bool
  pending : List String
  holding : List (String × Nat)
deriving DecidableEq, Repr

/-- Embedding of `BuildScheduler.update_running_items` (lines 152-176).  The
`display.update_items` call is I/O and has no effect on scheduler state. -/
def updateRunningItems (s : Sched) : Sched :=
  let items1 := scanLoop s.buildAfter [] s.items
  let pr := promoteLoop s.parallelJobs (numBuilding items1) items1
  { s with items := pr.1, pending := s.pending ++ pr.2 }

/-- State of the named item, as the scheduler reads it. -/
def stateOf (s : Sched) (n : String) : BState :=
  match findItem s.items n with
  | some it => it.state
  | none => BState.waiting

/-- Status text of the named item. -/
def statusOf (s : Sched) (n : String) : String :=
  match findItem s.items n with
  | some it => it.status
  | none => ""

/-- Embedding of line 186 of `update_item`:
`need_update = state == (State.DONE or state == State.FAILED) and state != item.state`.
In Python the parenthesized expression `State.DONE or state == State.FAILED`
evaluates to `State.DONE`, because the enum member `State.DONE` is truthy; the
condition therefore reduces to `state == State.DONE and state != item.state`,
where `item.state` is the value before the assignment below it. -/
def needUpdate (st : Option BState) (cur : BState) : Bool :=
  decide (st = some BState.done) && decide (st ≠ some cur)

/-- The field assignments of `update_item` (lines 187-198) restricted to the
state and status fields, applied to the single item with the given name. -/
def updateItemFields (items : List BuildItem) (n : String)
    (st : Option BState) (msg : Option String) : List BuildItem :=
  items.map (fun it =>
    if it.name = n then
      { it with state := st.getD it.state, status := msg.getD it.status }
    else it)

/-- Embedding of `BuildScheduler.update_item` (lines 178-203) restricted to
the state and status arguments: set the requested fields, then re-run
`update_running_items` exactly when `need_update` held (computed against the
state before the assignment); otherwise only the display is refreshed, which
has no scheduler-state effect. -/
def updateItem (s : Sched) (n : String) (st : Option BState)
    (msg : Option String) : Sched :=
  let nu := needUpdate st (stateOf s n)
  let s1 := { s with items := updateItemFields s.items n st msg }
  if nu then updateRunningItems s1 else s1

/-- Item table after the backend finishes an item with
`update_item(item, State.DONE, msg)`. -/
def doneItems (s : Sched) (n msg : String) : List BuildItem :=
  updateItemFields s.items n (some BState.done) (some msg)

/-- Scheduler state right after the DONE field assignment, before the
`need_update` rescan. -/
def donePre (s : Sched) (n msg : String) : Sched :=
  { s with items := doneItems s n msg }

/-- Scheduler state after a DONE `update_item` call: fields assigned, then
`update_running_items` re-run (`need_update` holds for DONE). -/
def doneMid (s : Sched) (n msg : String) : Sched :=
  updateRunningItems (donePre s n msg)

/-- Scheduler state after a FAILED `update_item` call: fields assigned and
nothing else, because `need_update` does not hold for FAILED. -/
def failMid (s : Sched) (n msg : String) : Sched :=
  { s with items := updateItemFields s.items n (some BState.failed) (some msg) }

/-- Item table after `run_build_item` lines 222-223 set a still-BUILDING item
to FAILED with the synthetic status. -/
def stuckItems (s : Sched) (n : String) : List BuildItem :=
  updateItemFields s.items n (some BState.failed)
    (some "Build method exited in RUNNING state")

/-- Scheduler state right after the synthetic-failure field assignments of
`run_build_item` lines 222-223. -/
def stuckPre (s : Sched) (n : String) : Sched :=
  { s with items := stuckItems s n }

/-- Scheduler state after the synthetic-failure conversion of
`run_build_item` and its direct `update_running_items` call (line 224). -/
def stuckMid (s : Sched) (n : String) : Sched :=
  updateRunningItems (stuckPre s n)

/-- Scheduler state after a status-only `update_item` call. -/
def statusMid (s : Sched) (n msg : String) : Sched :=
  { s with items := updateItemFields s.items n none (some msg) }

/-- First index of an unoccupied slot: the `for i, occupied in
enumerate(self.slots)` scan of `run_build_item` (lines 211-215). -/
def firstFree : List Bool → Option Nat
  | [] => none
  | b :: rest => if b = false then some 0 else (firstFree rest).map (· + 1)

/-- Number of unoccupied slots. -/
def countFalse (slots : List Bool) : Nat :=
  (slots.filter (fun b => decide (b = false))).length

/-- Events of one scheduling run: the synchronous event-loop segments that act
on scheduler state.  `start n` is the first segment of the `run_build_item`
task of item `n`: it allocates the first free slot (line 211-217).  The three
finish events cover the ways a backend `build_item` coroutine returns to
`run_build_item` (lines 219-231): `finishDone n msg` is a backend whose last
action is `update_item(item, State.DONE, msg)`, after which `run_build_item`
frees the slot; `finishFailed n msg` is a backend whose last action is
`update_item(item, State.FAILED, msg)`, after which `run_build_item` appends a
fresh slot and leaves the held slot occupied; `finishStuck n` is a backend
that returns with the item still BUILDING, which `run_build_item` converts to
FAILED with a synthetic status before appending a fresh slot.  `backendStatus`
is a status-only `update_item` call made by a backend while its item builds. -/
inductive Ev where
  | start (n : String)
  | finishDone (n : String) (msg : String)
  | finishFailed (n : String) (msg : String)
  | finishStuck (n : String)
  | backendStatus (n : String) (msg : String)
deriving DecidableEq, Repr

/-- Remove the holding entry of the named item. -/
def dropHold (holding : List (String × Nat)) (n : String) : List (String × Nat) :=
  holding.filter (fun q => decide (¬ q.1 = n))

/-- One event of the state machine.  `none` means the event is not enabled in
the current state (its task does not exist, or its item is not in the state
the event-loop segment runs from); for `start` it also covers the
`assert False, "cannot allocate slot"` branch, which the C10 theorem shows is
unreachable from reachable states. -/
def stepFn (s : Sched) : Ev → Option Sched
  | Ev.start n =>
      if n ∈ s.pending then
        match firstFree s.slots with
        | some i =>
            some { s with pending := s.pending.erase n,
                          slots := s.slots.set i true,
                          holding := s.holding ++ [(n, i)] }
        | none => none
      else none
  | Ev.finishDone n msg =>
      match s.holding.find? (fun p => decide (p.1 = n)) with
      | some p =>
          if stateOf s n = BState.building then
            let s1 := updateItem s n (some BState.done) (some msg)
            some { s1 with slots := s1.slots.set p.2 false,
                           holding := dropHold s1.holding n }
          else none
      | none => none
  | Ev.finishFailed n msg =>
      match s.holding.find? (fun p => decide (p.1 = n)) with
      | some _ =>
          if stateOf s n = BState.building then
            let s1 := updateItem s n (some BState.failed) (some msg)
            some { s1 with slots := s1.slots ++ [false],
                           holding := dropHold s1.holding n }
          else none
      | none => none
  | Ev.finishStuck n =>
      match s.holding.find? (fun p => decide (p.1 = n)) with
      | some _ =>
          if stateOf s n = BState.building then
            let its := updateItemFields s.items n (some BState.failed)
              (some "Build method exited in RUNNING state")
            let s2 := updateRunningItems { s with items := its }
            some { s2 with slots := s2.slots ++ [false],
                           holding := dropHold s2.holding n }
          else none
      | none => none
  | Ev.backendStatus n msg =>
      match s.holding.find? (fun p => decide (p.1 = n)) with
      | some _ =>
          if stateOf s n = BState.building then
            some (updateItem s n none (some msg))
          else none
      | none => none

/-- Run a list of events from a state. -/
def run (s : Sched) : List Ev → Option Sched
  | [] => some s
  | e :: evs =>
      match stepFn s e with
      | some s2 => run s2 evs
      | none => none

/-- Scheduler state after `__init__` and the `add_item` calls: every item
starts WAITING with an empty status, and the slot array holds `parallel_jobs`
unoccupied slots. -/
def initSched (ba : List (String × List String)) (pj : Nat)
    (names : List String) : Sched :=
  { buildAfter := ba
    parallelJobs := pj
    items := names.map (fun n => { name := n, state := BState.waiting, status := "" })
    slots := List.replicate pj false
    pending := []
    holding := [] }

/-- The first action of `do_build` (line 234) is an unconditional
`update_running_items` call. -/
def startBuild (s : Sched) : Sched := updateRunningItems s

/-- States reachable during a scheduling run on the given batch. -/
def Reachable (ba : List (String × List String)) (pj : Nat)
    (names : List String) (s : Sched) : Prop :=
  ∃ evs, run (startBuild (initSched ba pj names)) evs = some s

/-! ### Cycle detection — `check_for_cycles` of rpm_builder.py -/

/-- Nodes of the graph built by `check_for_cycles`: `G.add_nodes_from`
inserts every key of build_after, and each `G.add_edge(package, name)` call
also inserts its endpoints. -/
def baNodes (ba : List (String × List String)) : List String :=
  ba.map (fun p => p.1) ++ ba.flatMap (fun p => p.2)

/-- Edge relation of the graph built by `check_for_cycles`: one edge
`package ⇒ name` for each `name ∈ build_after[package]`. -/
def baEdge (ba : List (String × List String)) (a b : String) : Bool :=
  ba.any (fun p => decide (p.1 = a) && p.2.contains b)

/-- Bounded path search in the build_after graph: `pathUpTo ba n a b` decides
whether some edge path from `a` to `b` passes through at most `n`
intermediate nodes, each drawn from `baNodes ba` (every intermediate node of
any path is an edge target, hence listed there). -/
def pathUpTo (ba : List (String × List String)) : Nat → String → String → Bool
  | 0, a, b => baEdge ba a b
  | n + 1, a, b =>
      baEdge ba a b ||
        (baNodes ba).any (fun c => baEdge ba a c && pathUpTo ba n c b)

/-- Edge chain through an explicit list of intermediate nodes: `chainPath ba
a b l` says the graph has edges from `a` through the nodes of `l` in order
and finally to `b`.  Used to relate `pathUpTo` to the transitive closure of
the edge relation. -/
def chainPath (ba : List (String × List String)) (b : String) :
    String → List String → Bool
  | a, [] => baEdge ba a b
  | a, c :: l => baEdge ba a c && chainPath ba b c l

/-- Decides whether the graph built by `check_for_cycles` contains a directed
cycle.  `networkx.simple_cycles` enumerates every elementary cycle of the
graph (self-loops included), so the cycle list collected by the code is
nonempty exactly when a directed cycle exists; lemmas `pathUpTo_transGen` and
`transGen_hasCycleB` below prove this decision procedure equivalent to the
existence of a nonempty closed edge path. -/
def hasCycleB (ba : List (String × List String)) : Bool :=
  (baNodes ba).any (fun v => pathUpTo ba (baNodes ba).length v v)

/-- Edge relation of the build_after graph, as a proposition: the transitive
closure `Relation.TransGen (EdgeRel ba)` is the mathematical notion of a
nonempty directed path that the cycle lemmas relate to `pathUpTo`. -/
def EdgeRel (ba : List (String × List String)) (a b : String) : Prop :=
  baEdge ba a b = true

/-- Embedding of `check_for_cycles` (rpm_builder.py lines 56-93) as a fallible
computation: a single-package batch returns at once (line 57-61); otherwise
the cycle list of `networkx.simple_cycles` is collected and, when nonempty,
`click.ClickException` is raised (line 92-93).  Printing of cycles is I/O and
is modelled separately by `collectCycles` and `printedCycles`. -/
def checkForCycles (ba : List (String × List String)) : Except String Unit :=
  if ba.length = 1 then Except.ok ()
  else if hasCycleB ba then
    Except.error "Cannot determine build order because of cycles"
  else Except.ok ()

/-- The collection loop of `check_for_cycles` (lines 69-74): cycles are
appended from the `simple_cycles` iterator until 25 have been collected, so
the collected list is the first 25 elements of the enumeration. -/
def collectCycles (allCycles : List (List String)) : List (List String) :=
  allCycles.take 25

/-- The reporting slice of `check_for_cycles` (lines 76-77): the collected
cycles are sorted by length and the first five are printed. -/
def printedCycles (allCycles : List (List String)) : List (List String) :=
  ((collectCycles allCycles).mergeSort
    (fun x y => decide (x.length ≤ y.length))).take 5

/-- The tail of `RpmBuilder._compute_build_order` (lines 341-343): run
`check_for_cycles` on the computed mapping, and only if it does not raise,
return the mapping that is subsequently handed to the scheduler. -/
def computeBuildOrder (ba : List (String × List String)) :
    Except String (List (String × List String)) := do
  let _ ← checkForCycles ba
  pure ba

/-! ### Repository regeneration waits — `RepoWaiter` of build_scheduler.py -/

/-- Embedding of the waiting loop of `RepoWaiter.wait_for_event` (lines
74-77) together with the polling loop of `RepoWaiter.do_wait` (lines 57-64).
`last` is `self.last_repo_event` and `polls` is the sequence of
`getRepo(tag)["create_event"]` values the poll task observes.  `do_wait`
skips polls equal to the last observed event and returns the first differing
one, updating the last observed event; `wait_for_event` keeps asking for the
next returned event until one at or after the threshold arrives.  The result
is the event that satisfied the wait, or `none` if the finite poll sequence
ends before the wait is satisfied. -/
def waitLoop (event : Int) : Int → List Int → Option Int
  | _, [] => none
  | last, p :: rest =>
      if p ≠ last then
        if event ≤ p then some p else waitLoop event p rest
      else waitLoop event last rest

/-- Embedding of `RepoWaiter.wait_for_event` (lines 72-77): if the last
observed repository event already reaches the threshold the wait completes at
once (satisfied by that event); otherwise the waiting loop runs. -/
def waitForEvent (last event : Int) (polls : List Int) : Option Int :=
  if last < event then waitLoop event last polls else some last

/-- Done-view relation between items: same name and same DONE-ness.  The
`not_ready` computation only inspects presence, names, and DONE-ness, so it
is invariant under this relation. -/
def DV (a b : BuildItem) : Prop :=
  a.name = b.name ∧ (a.state = BState.done ↔ b.state = BState.done)

/-- Pointwise effect of the promotion loop on one item: an item is either
left untouched or was READY and is flipped to BUILDING. -/
def PromRel (a b : BuildItem) : Prop :=
  b = a ∨ (a.state = BState.ready ∧ b = { a with state := BState.building })

/-- Item table after the first loop of `update_running_items`, in per-item
map form (see `scanLoop_eq_map`). -/
def scanned (s : Sched) : List BuildItem :=
  s.items.map (scanOne s.buildAfter s.items)

/-- Item table after both loops of `update_running_items`. -/
def promotedItems (s : Sched) : List BuildItem :=
  (promoteLoop s.parallelJobs (numBuilding (scanned s)) (scanned s)).1

/-- Names whose `run_build_item` task one `update_running_items` call
spawns. -/
def launchedOf (s : Sched) : List String :=
  (promoteLoop s.parallelJobs (numBuilding (scanned s)) (scanned s)).2

/-- Dependency invariant: an item that has left WAITING has every present
build-after dependency in DONE. -/
def DepsInv (ba : List (String × List String)) (items : List BuildItem) : Prop :=
  ∀ it ∈ items, it.state ≠ BState.waiting →
    ∀ d ∈ lookupAfter ba it.name, ∀ o, findItem items d = some o →
      o.state = BState.done

/-- Wait-status invariant: a WAITING item has a nonempty not-ready list and
carries the corresponding waiting status text. -/
def WaitInv (ba : List (String × List String)) (items : List BuildItem) : Prop :=
  ∀ it ∈ items, it.state = BState.waiting →
    notReadyIn ba items it.name ≠ [] ∧
      it.status = waitingMsg (notReadyIn ba items it.name)

/-- Inductive invariant of reachable scheduler states. -/
structure Inv (ba : List (String × List String)) (pj : Nat) (s : Sched) : Prop where
  hba : s.buildAfter = ba
  hpj : s.parallelJobs = pj
  nodup : (s.items.map (fun it => it.name)).Nodup
  pendNodup : s.pending.Nodup
  holdNodup : (s.holding.map (fun p => p.1)).Nodup
  pendHold : ∀ n ∈ s.pending, ∀ p ∈ s.holding, p.1 ≠ n
  pendBuilding : ∀ n ∈ s.pending, ∃ it, findItem s.items n = some it ∧
    it.state = BState.building
  holdBuilding : ∀ p ∈ s.holding, ∃ it, findItem s.items p.1 = some it ∧
    it.state = BState.building
  countEq : numBuilding s.items = s.pending.length + s.holding.length
  countLe : numBuilding s.items ≤ pj
  slotsFree : countFalse s.slots = pj - s.holding.length
  holdLe : s.holding.length ≤ pj
  holdIdxNodup : (s.holding.map (fun p => p.2)).Nodup
  holdIdxValid : ∀ p ∈ s.holding, s.slots[p.2]? = some true
  deps : DepsInv ba s.items
  waits : WaitInv ba s.items

/-! ### Concrete scheduler runs used by the claim theorems and witnesses -/

/-- Batch used by the concrete runs: items a, b, c in insertion order with b
building after a (for the two-item runs, just a and b). -/
def wBA : List (String × List String) := [("b", ["a"])]

/-- State of a two-item run after the initial scan, `start a` and
`finishDone a`: a is DONE and b was promoted to BUILDING with its task
pending.  Reached by `wDoneTrace` and verified by computation. -/
def wDone : Sched :=
  { buildAfter := wBA
    parallelJobs := 1
    items := [{ name := "a", state := BState.done, status := "ok" },
              { name := "b", state := BState.building, status := "Ready" }]
    slots := [false]
    pending := ["b"]
    holding := [] }

/-- Event list reaching `wDone`. -/
def wDoneTrace : List Ev := [Ev.start "a", Ev.finishDone "a" "ok"]

/-- State of a two-item run after the initial scan and `start a`: a is
BUILDING and holds slot 0. -/
def wHold : Sched :=
  { buildAfter := wBA
    parallelJobs := 1
    items := [{ name := "a", state := BState.building, status := "Ready" },
              { name := "b", state := BState.waiting, status := "Waiting for: a" }]
    slots := [true]
    pending := []
    holding := [("a", 0)] }

/-- Event list reaching `wHold`. -/
def wHoldTrace : List Ev := [Ev.start "a"]

/-- Final state of the three-item run in which a fails while c is READY and
parallel_jobs is 1: the FAILED transition does not re-run the promotion scan,
so c is never launched, and with no pending or holding task left the
`do_build` loop exits. -/
def c4Final : Sched :=
  { buildAfter := wBA
    parallelJobs := 1
    items := [{ name := "a", state := BState.failed, status := "Build failed" },
              { name := "b", state := BState.waiting, status := "Waiting for: a" },
              { name := "c", state := BState.ready, status := "Ready" }]
    slots := [true, false]
    pending := []
    holding := [] }

/-- The run reaching `c4Final`. -/
def c4Run : Option Sched :=
  run (startBuild (initSched wBA 1 ["a", "b", "c"]))
    [Ev.start "a", Ev.finishFailed "a" "Build failed"]

/-- Small state used to exhibit the need_update evaluation: a is mid-build in
slot 0 while c is READY, waiting for the single slot. -/
def c5State : Sched :=
  { buildAfter := []
    parallelJobs := 1
    items := [{ name := "a", state := BState.building, status := "" },
              { name := "c", state := BState.ready, status := "Ready" }]
    slots := [true]
    pending := []
    holding := [("a", 0)] }

/-! ## Lemmas

The remainder of the file proves properties of the embedding.  We first
develop a small toolkit around `findItem` and the two loops of
`update_running_items`, then an inductive invariant of reachable scheduler
states, and finally the claim theorems. -/

/-- Characterization of `findItem` on a cons cell. -/
theorem findItem_cons (it : BuildItem) (rest : List BuildItem) (n : String) :
    findItem (it :: rest) n = if it.name = n then some it else findItem rest n := by
  simp only [findItem, List.find?_cons]
  by_cases h : it.name = n <;> simp [h]

/-- An item returned by `findItem` carries the requested name. -/
theorem findItem_eq_name {items : List BuildItem} {n : String} {it : BuildItem}
    (h : findItem items n = some it) : it.name = n := by
  have h2 := List.find?_some h
  simpa using h2

/-- An item returned by `findItem` is a member of the table. -/
theorem findItem_mem {items : List BuildItem} {n : String} {it : BuildItem}
    (h : findItem items n = some it) : it ∈ items :=
  List.mem_of_find?_eq_some h

/-- `findItem` commutes with a name-preserving map of the table. -/
theorem findItem_map (g : BuildItem → BuildItem) (hg : ∀ x, (g x).name = x.name) :
    ∀ (items : List BuildItem) (n : String),
      findItem (items.map g) n = (findItem items n).map g := by
  intro items n
  induction items with
  | nil => rfl
  | cons it rest ih =>
      rw [List.map_cons, findItem_cons, findItem_cons, hg]
      by_cases h : it.name = n <;> simp [h, ih]

/-- `findItem` carries along any name-preserving pointwise relation between
two tables: the lookups are either both absent or both present and related. -/
theorem findItem_forall2 {R : BuildItem → BuildItem → Prop}
    (hR : ∀ a b, R a b → a.name = b.name) :
    ∀ {l l' : List BuildItem}, List.Forall₂ R l l' → ∀ n,
      (findItem l n = none ∧ findItem l' n = none) ∨
        ∃ a b, findItem l n = some a ∧ findItem l' n = some b ∧ R a b := by
  intro l l' h
  induction h with
  | nil => exact fun n => Or.inl ⟨rfl, rfl⟩
  | cons hab htail ih =>
      intro n
      rename_i a b l₁ l₂
      rw [findItem_cons, findItem_cons, hR _ _ hab]
      by_cases hn : b.name = n
      · rw [if_pos hn, if_pos hn]
        exact Or.inr ⟨_, _, rfl, rfl, hab⟩
      · rw [if_neg hn, if_neg hn]
        exact ih n

/-- In a table with pairwise distinct names, `findItem` locates any member by
its name. -/
theorem findItem_of_mem_nodup :
    ∀ {items : List BuildItem}, (items.map (fun it => it.name)).Nodup →
      ∀ {b : BuildItem} {n : String}, b ∈ items → b.name = n →
        findItem items n = some b := by
  intro items
  induction items with
  | nil => intro _ _ _ h; cases h
  | cons it rest ih =>
      intro hnd b n hmem hname
      rw [List.map_cons, List.nodup_cons] at hnd
      rw [findItem_cons]
      rcases List.mem_cons.mp hmem with rfl | hmem2
      · rw [if_pos hname]
      · have hne : it.name ≠ n := by
          intro heq
          have hmm : b.name ∈ rest.map (fun x => x.name) :=
            List.mem_map_of_mem (fun x => x.name) hmem2
          rw [hname, ← heq] at hmm
          exact hnd.1 hmm
        rw [if_neg hne]
        exact ih hnd.2 hmem2 hname

/-- Names of two pointwise related tables agree whenever the relation
preserves names. -/
theorem forall2_map_name {R : BuildItem → BuildItem → Prop}
    (hR : ∀ a b, R a b → a.name = b.name) :
    ∀ {l l' : List BuildItem}, List.Forall₂ R l l' →
      l.map (fun it => it.name) = l'.map (fun it => it.name) := by
  intro l l' h
  induction h with
  | nil => rfl
  | cons hab _ ih => simp [hR _ _ hab, ih]

/-- Append rule for `List.Forall₂`. -/
theorem forall2_append {α β : Type} {R : α → β → Prop} :
    ∀ {l₁ l₃ : List α} {l₂ l₄ : List β},
      List.Forall₂ R l₁ l₂ → List.Forall₂ R l₃ l₄ →
        List.Forall₂ R (l₁ ++ l₃) (l₂ ++ l₄)
  | [], _, [], _, List.Forall₂.nil, h₂ => h₂
  | _ :: _, _, _ :: _, _, List.Forall₂.cons h t, h₂ =>
      List.Forall₂.cons h (forall2_append t h₂)

/-- Reflexivity of `List.Forall₂` for a reflexive relation. -/
theorem forall2_refl {α : Type} {R : α → α → Prop} (hR : ∀ a, R a a) :
    ∀ l : List α, List.Forall₂ R l l
  | [] => List.Forall₂.nil
  | _ :: rest => List.Forall₂.cons (hR _) (forall2_refl hR rest)

/-! ### The first loop of update_running_items -/

theorem DV_refl (a : BuildItem) : DV a a := ⟨rfl, Iff.rfl⟩

/-- `notReadyIn` only depends on the done-view of the item table. -/
theorem notReadyIn_congr {l l' : List BuildItem}
    (h : List.Forall₂ DV l l') (ba : List (String × List String)) (n : String) :
    notReadyIn ba l n = notReadyIn ba l' n := by
  unfold notReadyIn
  apply List.filterMap_congr
  intro dep _
  rcases findItem_forall2 (fun a b hab => hab.1) h dep with ⟨h1, h2⟩ | ⟨a, b, h1, h2, hab⟩
  · rw [h1, h2]
  · rw [h1, h2]
    show (if a.state ≠ BState.done then some a.name else none)
        = (if b.state ≠ BState.done then some b.name else none)
    by_cases hd : a.state = BState.done
    · rw [if_neg (fun hc => hc hd), if_neg (fun hc => hc (hab.2.mp hd))]
    · rw [if_pos hd, if_pos (fun hc => hd (hab.2.mpr hc)), hab.1]

/-- `scanOne` preserves the done-view of the item it rewrites. -/
theorem DV_scanOne (ba : List (String × List String)) (cur : List BuildItem)
    (it : BuildItem) : DV (scanOne ba cur it) it := by
  unfold scanOne
  by_cases hw : it.state = BState.waiting
  · rw [if_pos hw]
    by_cases he : (notReadyIn ba cur it.name).isEmpty
    · simp only [he, if_pos]
      exact ⟨rfl, by simp [hw]⟩
    · simp only [he, if_neg]
      exact ⟨rfl, Iff.rfl⟩
  · rw [if_neg hw]
    exact DV_refl it

/-- `scanOne` does not depend on the done-view class of the observed table. -/
theorem scanOne_congr {cur cur' : List BuildItem}
    (h : List.Forall₂ DV cur cur') (ba : List (String × List String))
    (it : BuildItem) : scanOne ba cur it = scanOne ba cur' it := by
  unfold scanOne
  rw [notReadyIn_congr h]

/-- The in-place first loop of `update_running_items` computes the same
result as an independent per-item rewrite against the original table: the
loop never changes the DONE-ness of any item, so the `not_ready` lists it
computes against the partially updated table agree with those computed
against the original table. -/
theorem scanLoop_eq (ba : List (String × List String)) :
    ∀ (rest prev prev₀ : List BuildItem), List.Forall₂ DV prev prev₀ →
      scanLoop ba prev rest = prev ++ rest.map (scanOne ba (prev₀ ++ rest)) := by
  intro rest
  induction rest with
  | nil => intro prev prev₀ _; simp [scanLoop]
  | cons it rest ih =>
      intro prev prev₀ hdv
      have hall : List.Forall₂ DV (prev ++ it :: rest) (prev₀ ++ it :: rest) :=
        forall2_append hdv (forall2_refl DV_refl _)
      have hhead : scanOne ba (prev ++ it :: rest) it
          = scanOne ba (prev₀ ++ it :: rest) it := scanOne_congr hall ba it
      have hdv2 : List.Forall₂ DV (prev ++ [scanOne ba (prev ++ it :: rest) it])
          (prev₀ ++ [it]) :=
        forall2_append hdv
          (List.Forall₂.cons (DV_scanOne ba (prev ++ it :: rest) it) List.Forall₂.nil)
      rw [scanLoop, ih _ _ hdv2, hhead]
      simp

/-- The first loop, as a per-item map against the original table. -/
theorem scanLoop_eq_map (ba : List (String × List String))
    (items : List BuildItem) :
    scanLoop ba [] items = items.map (scanOne ba items) := by
  simpa using scanLoop_eq ba items [] [] List.Forall₂.nil

/-- `scanOne` keeps the name of the item. -/
theorem scanOne_name (ba : List (String × List String)) (cur : List BuildItem)
    (it : BuildItem) : (scanOne ba cur it).name = it.name :=
  (DV_scanOne ba cur it).1

/-- `scanOne` on a non-WAITING item is the identity. -/
theorem scanOne_of_not_waiting {it : BuildItem}
    (h : it.state ≠ BState.waiting) (ba : List (String × List String))
    (cur : List BuildItem) : scanOne ba cur it = it := by
  unfold scanOne
  rw [if_neg h]

/-- `scanOne` on a WAITING item with an empty not-ready list promotes it. -/
theorem scanOne_of_promote {it : BuildItem} (h : it.state = BState.waiting)
    {ba : List (String × List String)} {cur : List BuildItem}
    (he : notReadyIn ba cur it.name = []) :
    scanOne ba cur it = { it with state := BState.ready, status := "Ready" } := by
  unfold scanOne
  rw [if_pos h, he]
  rfl

/-- `scanOne` on a WAITING item with a nonempty not-ready list only rewrites
its status. -/
theorem scanOne_of_block {it : BuildItem} (h : it.state = BState.waiting)
    {ba : List (String × List String)} {cur : List BuildItem}
    (he : notReadyIn ba cur it.name ≠ []) :
    scanOne ba cur it = { it with status := waitingMsg (notReadyIn ba cur it.name) } := by
  unfold scanOne
  rw [if_pos h, if_neg (by simpa using he)]

/-- The state after `scanOne` is BUILDING exactly when it was BUILDING. -/
theorem scanOne_building (ba : List (String × List String))
    (cur : List BuildItem) (it : BuildItem) :
    ((scanOne ba cur it).state = BState.building) = (it.state = BState.building) := by
  unfold scanOne
  by_cases hw : it.state = BState.waiting
  · rw [if_pos hw]
    by_cases he : (notReadyIn ba cur it.name).isEmpty <;> simp [he, hw]
  · rw [if_neg hw]

/-- The first loop does not change the number of BUILDING items. -/
theorem numBuilding_scan (ba : List (String × List String))
    (cur items : List BuildItem) :
    numBuilding (items.map (scanOne ba cur)) = numBuilding items := by
  unfold numBuilding
  rw [List.filter_map]
  rw [List.length_map]
  congr 1
  apply List.filter_congr
  intro it _
  simp [scanOne_building]

/-! ### The second loop of update_running_items -/

theorem PromRel_name {a b : BuildItem} (h : PromRel a b) : a.name = b.name := by
  rcases h with rfl | ⟨_, rfl⟩ <;> rfl

/-- The promotion loop relates its input and output tables pointwise. -/
theorem promote_rel (pj : Nat) :
    ∀ (items : List BuildItem) (nb : Nat),
      List.Forall₂ PromRel items (promoteLoop pj nb items).1 := by
  intro items
  induction items with
  | nil => intro nb; exact List.Forall₂.nil
  | cons it rest ih =>
      intro nb
      rw [promoteLoop]
      by_cases h : nb < pj ∧ it.state = BState.ready
      · rw [if_pos h]
        exact List.Forall₂.cons (Or.inr ⟨h.2, rfl⟩) (ih (nb + 1))
      · rw [if_neg h]
        exact List.Forall₂.cons (Or.inl rfl) (ih nb)

/-- The promotion loop adds exactly one BUILDING item per launched name. -/
theorem promote_numBuilding (pj : Nat) :
    ∀ (items : List BuildItem) (nb : Nat),
      numBuilding (promoteLoop pj nb items).1
        = numBuilding items + (promoteLoop pj nb items).2.length := by
  intro items
  induction items with
  | nil => intro nb; rfl
  | cons it rest ih =>
      intro nb
      rw [promoteLoop]
      by_cases h : nb < pj ∧ it.state = BState.ready
      · rw [if_pos h]
        have hih := ih (nb + 1)
        simp only [numBuilding, List.filter_cons] at hih ⊢
        simp only [h.2] at hih ⊢
        simp at hih ⊢
        omega
      · rw [if_neg h]
        have hih := ih nb
        simp only [numBuilding, List.filter_cons] at hih ⊢
        by_cases hb : it.state = BState.building <;> simp [hb] <;> omega

/-- The length of the launched list never pushes the running count above
`parallel_jobs`: each promotion happens under the strict guard. -/
theorem promote_bound (pj : Nat) :
    ∀ (items : List BuildItem) (nb : Nat), nb ≤ pj →
      nb + (promoteLoop pj nb items).2.length ≤ pj := by
  intro items
  induction items with
  | nil => intro nb h; simpa using h
  | cons it rest ih =>
      intro nb h
      rw [promoteLoop]
      by_cases hc : nb < pj ∧ it.state = BState.ready
      · rw [if_pos hc]
        have := ih (nb + 1) hc.1
        simpa [Nat.add_comm, Nat.add_assoc, Nat.add_left_comm] using this
      · rw [if_neg hc]
        exact ih nb h

/-- The launched names form a sublist of the table names, in order. -/
theorem promote_sublist (pj : Nat) :
    ∀ (items : List BuildItem) (nb : Nat),
      List.Sublist (promoteLoop pj nb items).2
        (items.map (fun it => it.name)) := by
  intro items
  induction items with
  | nil => intro nb; exact List.Sublist.refl []
  | cons it rest ih =>
      intro nb
      rw [promoteLoop]
      by_cases h : nb < pj ∧ it.state = BState.ready
      · rw [if_pos h]
        exact List.Sublist.cons₂ _ (ih (nb + 1))
      · rw [if_neg h]
        exact List.Sublist.cons _ (ih nb)

/-- Every launched name comes from a READY item of the input table. -/
theorem promote_src_ready (pj : Nat) :
    ∀ (items : List BuildItem) (nb : Nat) (n : String),
      n ∈ (promoteLoop pj nb items).2 →
        ∃ a, a ∈ items ∧ a.name = n ∧ a.state = BState.ready := by
  intro items
  induction items with
  | nil => intro nb n h; cases h
  | cons it rest ih =>
      intro nb n hmem
      rw [promoteLoop] at hmem
      by_cases h : nb < pj ∧ it.state = BState.ready
      · rw [if_pos h] at hmem
        rcases List.mem_cons.mp hmem with rfl | hmem2
        · exact ⟨it, List.mem_cons_self it rest, rfl, h.2⟩
        · rcases ih (nb + 1) n hmem2 with ⟨a, hm, hn, hs⟩
          exact ⟨a, List.mem_cons_of_mem it hm, hn, hs⟩
      · rw [if_neg h] at hmem
        rcases ih nb n hmem with ⟨a, hm, hn, hs⟩
        exact ⟨a, List.mem_cons_of_mem it hm, hn, hs⟩

/-- Every launched name is BUILDING in the output table. -/
theorem promote_mem_building (pj : Nat) :
    ∀ (items : List BuildItem) (nb : Nat) (n : String),
      n ∈ (promoteLoop pj nb items).2 →
        ∃ b, b ∈ (promoteLoop pj nb items).1 ∧ b.name = n
          ∧ b.state = BState.building := by
  intro items
  induction items with
  | nil => intro nb n h; cases h
  | cons it rest ih =>
      intro nb n hmem
      rw [promoteLoop] at hmem ⊢
      by_cases h : nb < pj ∧ it.state = BState.ready
      · rw [if_pos h] at hmem ⊢
        rcases List.mem_cons.mp hmem with rfl | hmem2
        · exact ⟨_, List.mem_cons_self _ _, rfl, rfl⟩
        · rcases ih (nb + 1) n hmem2 with ⟨b, hm, hn, hs⟩
          exact ⟨b, List.mem_cons_of_mem _ hm, hn, hs⟩
      · rw [if_neg h] at hmem ⊢
        rcases ih nb n hmem with ⟨b, hm, hn, hs⟩
        exact ⟨b, List.mem_cons_of_mem _ hm, hn, hs⟩

/-! ### Facts about a whole update_running_items call -/

theorem uri_slots (s : Sched) : (updateRunningItems s).slots = s.slots := rfl

theorem uri_holding (s : Sched) : (updateRunningItems s).holding = s.holding := rfl

theorem uri_buildAfter (s : Sched) :
    (updateRunningItems s).buildAfter = s.buildAfter := rfl

theorem uri_parallelJobs (s : Sched) :
    (updateRunningItems s).parallelJobs = s.parallelJobs := rfl

theorem uri_items (s : Sched) : (updateRunningItems s).items = promotedItems s := by
  unfold updateRunningItems promotedItems scanned
  rw [scanLoop_eq_map]

theorem uri_pending (s : Sched) :
    (updateRunningItems s).pending = s.pending ++ launchedOf s := by
  unfold updateRunningItems launchedOf scanned
  rw [scanLoop_eq_map]

/-- The scanned table relates pointwise to the original by the map. -/
theorem forall2_map {α : Type} (g : α → α) :
    ∀ l : List α, List.Forall₂ (fun a b => b = g a) l (l.map g)
  | [] => List.Forall₂.nil
  | _ :: rest => List.Forall₂.cons rfl (forall2_map g rest)

theorem scanned_names (s : Sched) :
    (scanned s).map (fun it => it.name) = s.items.map (fun it => it.name) := by
  unfold scanned
  rw [List.map_map]
  congr 1
  funext it
  exact scanOne_name s.buildAfter s.items it

theorem promoted_names (s : Sched) :
    (promotedItems s).map (fun it => it.name)
      = s.items.map (fun it => it.name) := by
  rw [← scanned_names]
  exact (forall2_map_name (fun a b h => PromRel_name h)
    (promote_rel s.parallelJobs (scanned s) (numBuilding (scanned s)))).symm

theorem uri_names (s : Sched) :
    (updateRunningItems s).items.map (fun it => it.name)
      = s.items.map (fun it => it.name) := by
  rw [uri_items]
  exact promoted_names s

/-- An item that is neither WAITING nor READY passes through both loops
untouched. -/
theorem uri_find_stable {s : Sched} {n : String} {it : BuildItem}
    (hf : findItem s.items n = some it) (hw : it.state ≠ BState.waiting)
    (hr : it.state ≠ BState.ready) :
    findItem (updateRunningItems s).items n = some it := by
  have h1 : findItem (scanned s) n = some it := by
    unfold scanned
    rw [findItem_map _ (scanOne_name s.buildAfter s.items) s.items n, hf]
    simp [scanOne_of_not_waiting hw]
  rcases findItem_forall2 (fun a b h => PromRel_name h)
      (promote_rel s.parallelJobs (scanned s) (numBuilding (scanned s))) n with
    ⟨hn1, _⟩ | ⟨a, b, ha, hb, hab⟩
  · rw [h1] at hn1; cases hn1
  · rw [h1] at ha
    cases ha
    rcases hab with rfl | ⟨hst, _⟩
    · rw [uri_items]; exact hb
    · exact absurd hst hr

theorem uri_numBuilding (s : Sched) :
    numBuilding (updateRunningItems s).items
      = numBuilding s.items + (launchedOf s).length := by
  rw [uri_items]
  unfold promotedItems launchedOf
  rw [promote_numBuilding]
  congr 1
  exact numBuilding_scan s.buildAfter s.items s.items

theorem uri_numBuilding_le {s : Sched}
    (h : numBuilding s.items ≤ s.parallelJobs) :
    numBuilding (updateRunningItems s).items ≤ s.parallelJobs := by
  have hb := promote_bound s.parallelJobs (scanned s) (numBuilding (scanned s))
    (by unfold scanned; rw [numBuilding_scan]; exact h)
  rw [uri_numBuilding]
  have he : numBuilding (scanned s) = numBuilding s.items :=
    numBuilding_scan s.buildAfter s.items s.items
  unfold launchedOf
  omega

theorem uri_launched_nodup {s : Sched}
    (hnd : (s.items.map (fun it => it.name)).Nodup) : (launchedOf s).Nodup := by
  have hnd2 : ((scanned s).map (fun it => it.name)).Nodup := by
    rw [scanned_names]; exact hnd
  exact hnd2.sublist (promote_sublist s.parallelJobs (scanned s) (numBuilding (scanned s)))

/-- A launched name belonged to a READY item of the scanned table. -/
theorem uri_launched_src {s : Sched} {n : String} (hm : n ∈ launchedOf s) :
    ∃ a, a ∈ scanned s ∧ a.name = n ∧ a.state = BState.ready :=
  promote_src_ready s.parallelJobs (scanned s) (numBuilding (scanned s)) n hm

/-- A name whose item is BUILDING is never launched again. -/
theorem uri_launched_not_building {s : Sched} {n : String} {it : BuildItem}
    (hnd : (s.items.map (fun it => it.name)).Nodup)
    (hf : findItem s.items n = some it) (hb : it.state = BState.building) :
    n ∉ launchedOf s := by
  intro hm
  rcases uri_launched_src hm with ⟨a, hmem, hname, hready⟩
  have h1 : findItem (scanned s) n = some (scanOne s.buildAfter s.items it) := by
    unfold scanned
    rw [findItem_map _ (scanOne_name s.buildAfter s.items) s.items n, hf]
    rfl
  have hnd2 : ((scanned s).map (fun it => it.name)).Nodup := by
    rw [scanned_names]; exact hnd
  have h2 : findItem (scanned s) n = some a := findItem_of_mem_nodup hnd2 hmem hname
  rw [h1] at h2
  cases h2
  rw [scanOne_of_not_waiting (by rw [hb]; intro hc; cases hc)] at hready
  rw [hb] at hready
  cases hready

/-- A launched name is BUILDING in the output table. -/
theorem uri_launched_building {s : Sched} {n : String}
    (hnd : (s.items.map (fun it => it.name)).Nodup) (hm : n ∈ launchedOf s) :
    ∃ b, findItem (updateRunningItems s).items n = some b ∧
      b.state = BState.building := by
  rcases promote_mem_building s.parallelJobs (scanned s)
      (numBuilding (scanned s)) n hm with ⟨b, hmem, hname, hst⟩
  refine ⟨b, ?_, hst⟩
  rw [uri_items]
  apply findItem_of_mem_nodup _ hmem hname
  show ((promotedItems s).map (fun it => it.name)).Nodup
  rw [promoted_names s]
  exact hnd

theorem DV_symm {a b : BuildItem} (h : DV a b) : DV b a := ⟨h.1.symm, h.2.symm⟩

theorem DV_trans {a b c : BuildItem} (h1 : DV a b) (h2 : DV b c) : DV a c :=
  ⟨h1.1.trans h2.1, h1.2.trans h2.2⟩

theorem promRel_DV {a b : BuildItem} (h : PromRel a b) : DV a b := by
  rcases h with rfl | ⟨hs, rfl⟩
  · exact DV_refl _
  · exact ⟨rfl, by simp [hs]⟩

theorem forall2_DV_trans :
    ∀ {l₁ l₂ l₃ : List BuildItem}, List.Forall₂ DV l₁ l₂ →
      List.Forall₂ DV l₂ l₃ → List.Forall₂ DV l₁ l₃
  | _, _, _, List.Forall₂.nil, List.Forall₂.nil => List.Forall₂.nil
  | _, _, _, List.Forall₂.cons h1 t1, List.Forall₂.cons h2 t2 =>
      List.Forall₂.cons (DV_trans h1 h2) (forall2_DV_trans t1 t2)

theorem forall2_mem_right {α β : Type} {R : α → β → Prop} :
    ∀ {l : List α} {l' : List β}, List.Forall₂ R l l' → ∀ {b : β}, b ∈ l' →
      ∃ a, a ∈ l ∧ R a b := by
  intro l l' h
  induction h with
  | nil => intro b hb; cases hb
  | cons hab _ ih =>
      intro b hb
      rcases List.mem_cons.mp hb with rfl | hb2
      · exact ⟨_, List.mem_cons_self _ _, hab⟩
      · rcases ih hb2 with ⟨a, hm, hr⟩
        exact ⟨a, List.mem_cons_of_mem _ hm, hr⟩

/-- Pointwise map with a relation between element and image. -/
theorem forall2_map_rel {α : Type} {R : α → α → Prop} (g : α → α)
    (h : ∀ a, R a (g a)) : ∀ l : List α, List.Forall₂ R l (l.map g)
  | [] => List.Forall₂.nil
  | _ :: rest => List.Forall₂.cons (h _) (forall2_map_rel g h rest)

/-- Monotonicity of `List.Forall₂` in the relation. -/
theorem forall2_imp {α β : Type} {R S : α → β → Prop}
    (h : ∀ a b, R a b → S a b) :
    ∀ {l : List α} {l' : List β}, List.Forall₂ R l l' → List.Forall₂ S l l'
  | _, _, List.Forall₂.nil => List.Forall₂.nil
  | _, _, List.Forall₂.cons hab t => List.Forall₂.cons (h _ _ hab) (forall2_imp h t)

/-- The whole `update_running_items` call preserves the done-view of the item
table. -/
theorem dv_uri (s : Sched) :
    List.Forall₂ DV s.items (updateRunningItems s).items := by
  rw [uri_items]
  have h1 : List.Forall₂ DV s.items (scanned s) :=
    forall2_map_rel (scanOne s.buildAfter s.items)
      (fun a => DV_symm (DV_scanOne s.buildAfter s.items a)) s.items
  have h2 : List.Forall₂ DV (scanned s) (promotedItems s) :=
    forall2_imp (fun a b hab => promRel_DV hab)
      (promote_rel s.parallelJobs (scanned s) (numBuilding (scanned s)))
  exact forall2_DV_trans h1 h2

/-- The not-ready list of `update_running_items` output agrees with the one
computed on the input table. -/
theorem uri_notReady (s : Sched) (ba : List (String × List String)) (n : String) :
    notReadyIn ba (updateRunningItems s).items n = notReadyIn ba s.items n :=
  (notReadyIn_congr (dv_uri s) ba n).symm

/-- Characterization of an empty not-ready list: every present build-after
dependency is DONE. -/
theorem notReady_nil_iff (ba : List (String × List String))
    (items : List BuildItem) (n : String) :
    notReadyIn ba items n = [] ↔ ∀ d ∈ lookupAfter ba n, ∀ o,
      findItem items d = some o → o.state = BState.done := by
  unfold notReadyIn
  rw [List.filterMap_eq_nil_iff]
  constructor
  · intro h d hd o ho
    have h2 := h d hd
    rw [ho] at h2
    change (if o.state ≠ BState.done then some o.name else none) = none at h2
    by_contra hc
    rw [if_pos hc] at h2
    cases h2
  · intro h d hd
    cases ho : findItem items d with
    | none => rfl
    | some o =>
        have hdone := h d hd o ho
        show (if o.state ≠ BState.done then some o.name else none) = none
        rw [if_neg (fun hc => hc hdone)]

/-- Every member of the output table of `update_running_items` arises from a
member of the input table by the scan rewrite followed by an optional
promotion. -/
theorem uri_mem_src {s : Sched} {b : BuildItem}
    (hmem : b ∈ (updateRunningItems s).items) :
    ∃ a, a ∈ s.items ∧ PromRel (scanOne s.buildAfter s.items a) b := by
  rw [uri_items] at hmem
  rcases forall2_mem_right
      (promote_rel s.parallelJobs (scanned s) (numBuilding (scanned s)))
      hmem with ⟨a1, hm1, hr⟩
  rcases List.mem_map.mp hm1 with ⟨a0, hm0, rfl⟩
  exact ⟨a0, hm0, hr⟩

/-- `update_running_items` preserves the dependency invariant. -/
theorem uri_deps {s : Sched} {ba : List (String × List String)}
    (hba : s.buildAfter = ba) (hd : DepsInv ba s.items) :
    DepsInv ba (updateRunningItems s).items := by
  intro it2 hmem hne d hdep o ho
  rcases uri_mem_src hmem with ⟨it0, hm0, hr⟩
  have hname : it2.name = it0.name := by
    rw [← PromRel_name hr, scanOne_name]
  rw [hname] at hdep
  have hold : ∀ e ∈ lookupAfter ba it0.name, ∀ o2,
      findItem s.items e = some o2 → o2.state = BState.done := by
    by_cases hw : it0.state = BState.waiting
    · have hnr : notReadyIn s.buildAfter s.items it0.name = [] := by
        by_contra hnr
        rw [scanOne_of_block hw hnr] at hr
        rcases hr with rfl | ⟨hs, _⟩
        · exact hne hw
        · rw [hw] at hs; cases hs
      rw [hba] at hnr
      exact (notReady_nil_iff ba s.items it0.name).mp hnr
    · rw [scanOne_of_not_waiting hw] at hr
      rcases hr with rfl | ⟨hs, rfl⟩
      · exact fun e he o2 ho2 => hd _ hm0 hne e he o2 ho2
      · exact fun e he o2 ho2 =>
          hd it0 hm0 (by rw [hs]; intro hc; cases hc) e he o2 ho2
  rcases findItem_forall2 (fun a b h => h.1) (dv_uri s) d with
    ⟨_, h2⟩ | ⟨a, b2, h1, h2, hab⟩
  · rw [ho] at h2; cases h2
  · rw [ho] at h2
    cases h2
    exact hab.2.mp (hold d hdep a h1)

/-- `update_running_items` establishes the wait-status invariant. -/
theorem uri_waits {s : Sched} {ba : List (String × List String)}
    (hba : s.buildAfter = ba) :
    WaitInv ba (updateRunningItems s).items := by
  intro it2 hmem hw2
  rcases uri_mem_src hmem with ⟨it0, hm0, hr⟩
  have hname : it2.name = it0.name := by
    rw [← PromRel_name hr, scanOne_name]
  have hit2 : it2 = scanOne s.buildAfter s.items it0 := by
    rcases hr with rfl | ⟨_, rfl⟩
    · rfl
    · simp at hw2
  by_cases hw0 : it0.state = BState.waiting
  · by_cases hnr : notReadyIn s.buildAfter s.items it0.name = []
    · rw [hit2, scanOne_of_promote hw0 hnr] at hw2
      cases hw2
    · rw [uri_notReady, hname, ← hba]
      refine ⟨hnr, ?_⟩
      rw [hit2, scanOne_of_block hw0 hnr]
  · rw [hit2, scanOne_of_not_waiting hw0] at hw2
    exact absurd hw2 hw0

/-! ### Facts about update_item field assignment -/

theorem uif_fun_name (n : String) (st : Option BState) (msg : Option String)
    (it : BuildItem) :
    (if it.name = n then
        { it with state := st.getD it.state, status := msg.getD it.status }
      else it).name = it.name := by
  by_cases h : it.name = n <;> simp [h]

theorem uif_names (items : List BuildItem) (n : String) (st : Option BState)
    (msg : Option String) :
    (updateItemFields items n st msg).map (fun it => it.name)
      = items.map (fun it => it.name) := by
  unfold updateItemFields
  rw [List.map_map]
  congr 1
  funext it
  exact uif_fun_name n st msg it

theorem uif_find_ne {items : List BuildItem} {m n : String} (hm : m ≠ n)
    (st : Option BState) (msg : Option String) :
    findItem (updateItemFields items n st msg) m = findItem items m := by
  unfold updateItemFields
  rw [findItem_map _ (uif_fun_name n st msg) items m]
  cases hf : findItem items m with
  | none => rfl
  | some it =>
      have := findItem_eq_name hf
      simp [Option.map, this, hm]

theorem uif_find_eq (items : List BuildItem) (n : String) (st : Option BState)
    (msg : Option String) :
    findItem (updateItemFields items n st msg) n
      = (findItem items n).map (fun it =>
          { it with state := st.getD it.state, status := msg.getD it.status }) := by
  unfold updateItemFields
  rw [findItem_map _ (uif_fun_name n st msg) items n]
  cases hf : findItem items n with
  | none => rfl
  | some it =>
      have := findItem_eq_name hf
      simp [Option.map, this]

theorem uif_id {items : List BuildItem} {n : String}
    (h : ∀ x ∈ items, ¬ x.name = n) (st : Option BState) (msg : Option String) :
    updateItemFields items n st msg = items := by
  unfold updateItemFields
  induction items with
  | nil => rfl
  | cons it rest ih =>
      rw [List.map_cons, if_neg (h it (List.mem_cons_self it rest)),
        ih (fun x hx => h x (List.mem_cons_of_mem it hx))]

/-- Setting a BUILDING item to a non-BUILDING state decrements the building
count by one, provided names are unique. -/
theorem uif_numBuilding {items : List BuildItem} {n : String} {it : BuildItem}
    (hnd : (items.map (fun x => x.name)).Nodup)
    (hf : findItem items n = some it) (hb : it.state = BState.building)
    {st : Option BState} (hst : st.getD it.state ≠ BState.building)
    (msg : Option String) :
    numBuilding (updateItemFields items n st msg) + 1 = numBuilding items := by
  induction items with
  | nil => cases hf
  | cons a rest ih =>
      rw [List.map_cons, List.nodup_cons] at hnd
      rw [findItem_cons] at hf
      by_cases ha : a.name = n
      · rw [if_pos ha] at hf
        cases hf
        have hrest : updateItemFields rest n st msg = rest := by
          apply uif_id _ st msg
          intro x hx hxn
          exact hnd.1 (by rw [← ha, ← hxn] at *; exact List.mem_map_of_mem _ hx)
        unfold updateItemFields
        rw [List.map_cons, if_pos ha]
        show numBuilding (_ :: updateItemFields rest n st msg) + 1 = _
        rw [hrest]
        simp only [numBuilding, List.filter_cons]
        rw [if_neg (by simpa using hst), if_pos (by simpa using hb)]
        simp
      · rw [if_neg ha] at hf
        unfold updateItemFields
        rw [List.map_cons, if_neg ha]
        show numBuilding (a :: updateItemFields rest n st msg) + 1 = _
        have hih := ih hnd.2 hf
        simp only [numBuilding, List.filter_cons]
        by_cases hab : a.state = BState.building <;>
          simp only [hab] <;> simp_all [numBuilding]

/-! ### Slot array lemmas -/

theorem countFalse_replicate (k : Nat) :
    countFalse (List.replicate k false) = k := by
  induction k with
  | zero => rfl
  | succ k ih =>
      rw [List.replicate_succ]
      show countFalse (false :: List.replicate k false) = k + 1
      simp only [countFalse, List.filter_cons] at ih ⊢
      rw [if_pos (by simp)]
      simp only [List.length_cons]
      omega

theorem countFalse_append_false (l : List Bool) :
    countFalse (l ++ [false]) = countFalse l + 1 := by
  simp [countFalse, List.filter_append]

theorem countFalse_set_true :
    ∀ (l : List Bool) (i : Nat), l[i]? = some false →
      countFalse (l.set i true) + 1 = countFalse l := by
  intro l
  induction l with
  | nil => intro i h; cases h
  | cons b rest ih =>
      intro i h
      cases i with
      | zero =>
          rw [List.getElem?_cons_zero] at h
          cases h
          simp [countFalse, List.set, List.filter_cons]
      | succ j =>
          rw [List.getElem?_cons_succ] at h
          have := ih j h
          simp only [List.set, countFalse, List.filter_cons]
          by_cases hb : b = false <;> simp only [hb] <;> simp_all [countFalse]

theorem countFalse_set_false :
    ∀ (l : List Bool) (i : Nat), l[i]? = some true →
      countFalse (l.set i false) = countFalse l + 1 := by
  intro l
  induction l with
  | nil => intro i h; cases h
  | cons b rest ih =>
      intro i h
      cases i with
      | zero =>
          rw [List.getElem?_cons_zero] at h
          cases h
          simp [countFalse, List.set, List.filter_cons]
      | succ j =>
          rw [List.getElem?_cons_succ] at h
          have := ih j h
          simp only [List.set, countFalse, List.filter_cons]
          by_cases hb : b = false <;> simp only [hb] <;> simp_all [countFalse]

theorem firstFree_spec :
    ∀ (l : List Bool) (i : Nat), firstFree l = some i →
      l[i]? = some false ∧ ∀ j, j < i → l[j]? = some true := by
  intro l
  induction l with
  | nil => intro i h; cases h
  | cons b rest ih =>
      intro i h
      unfold firstFree at h
      by_cases hb : b = false
      · rw [if_pos hb] at h
        cases h
        subst hb
        exact ⟨by simp, fun j hj => absurd hj (Nat.not_lt_zero j)⟩
      · rw [if_neg hb] at h
        cases hff : firstFree rest with
        | none => rw [hff] at h; cases h
        | some k =>
            rw [hff] at h
            cases h
            rcases ih k hff with ⟨h1, h2⟩
            refine ⟨by simpa using h1, ?_⟩
            intro j hj
            cases j with
            | zero =>
                have : b = true := by
                  cases b
                  · exact absurd rfl hb
                  · rfl
                simp [this]
            | succ m =>
                rw [List.getElem?_cons_succ]
                exact h2 m (Nat.lt_of_succ_lt_succ hj)

theorem firstFree_of_pos :
    ∀ l : List Bool, 0 < countFalse l → ∃ i, firstFree l = some i := by
  intro l
  induction l with
  | nil => intro h; simp [countFalse] at h
  | cons b rest ih =>
      intro h
      by_cases hb : b = false
      · exact ⟨0, by simp [firstFree, hb]⟩
      · have hcf : countFalse (b :: rest) = countFalse rest := by
          simp [countFalse, List.filter_cons, hb]
        rw [hcf] at h
        rcases ih h with ⟨i, hi⟩
        exact ⟨i + 1, by simp [firstFree, hb, hi]⟩

theorem getElem?_some_lt {α : Type} {l : List α} {i : Nat} {x : α}
    (h : l[i]? = some x) : i < l.length :=
  (List.getElem?_eq_some_iff.mp h).1

/-! ### Holding list lemmas -/

theorem holdFind_cons (p : String × Nat) (rest : List (String × Nat)) (n : String) :
    (p :: rest).find? (fun q => decide (q.1 = n))
      = if p.1 = n then some p else rest.find? (fun q => decide (q.1 = n)) := by
  simp only [List.find?_cons]
  by_cases h : p.1 = n <;> simp [h]

theorem holdFind_mem {holding : List (String × Nat)} {n : String} {p : String × Nat}
    (h : holding.find? (fun q => decide (q.1 = n)) = some p) :
    p ∈ holding ∧ p.1 = n := by
  refine ⟨List.mem_of_find?_eq_some h, ?_⟩
  have := List.find?_some h
  simpa using this

theorem holdFind_of_mem_nodup :
    ∀ {holding : List (String × Nat)},
      (holding.map (fun q => q.1)).Nodup →
      ∀ {p : String × Nat}, p ∈ holding →
        holding.find? (fun q => decide (q.1 = p.1)) = some p := by
  intro holding
  induction holding with
  | nil => intro _ p hp; cases hp
  | cons q rest ih =>
      intro hnd p hp
      rw [List.map_cons, List.nodup_cons] at hnd
      rw [holdFind_cons]
      rcases List.mem_cons.mp hp with rfl | hp2
      · rw [if_pos rfl]
      · have hne : q.1 ≠ p.1 := by
          intro heq
          exact hnd.1 (heq ▸ List.mem_map_of_mem (fun x => x.1) hp2)
        rw [if_neg hne]
        exact ih hnd.2 hp2

theorem mem_dropHold {holding : List (String × Nat)} {n : String}
    {q : String × Nat} : q ∈ dropHold holding n ↔ q ∈ holding ∧ q.1 ≠ n := by
  unfold dropHold
  rw [List.mem_filter]
  simp

theorem dropHold_sublist (holding : List (String × Nat)) (n : String) :
    List.Sublist (dropHold holding n) holding :=
  List.filter_sublist holding

theorem dropHold_length :
    ∀ {holding : List (String × Nat)}, (holding.map (fun q => q.1)).Nodup →
      ∀ {p : String × Nat}, p ∈ holding → p.1 = n →
        (dropHold holding n).length + 1 = holding.length := by
  intro holding
  induction holding with
  | nil => intro _ p hp; cases hp
  | cons q rest ih =>
      intro hnd p hp hpn
      rw [List.map_cons, List.nodup_cons] at hnd
      rcases List.mem_cons.mp hp with rfl | hp2
      · unfold dropHold
        rw [List.filter_cons, if_neg (by simp [hpn])]
        have : dropHold rest n = rest := by
          unfold dropHold
          apply List.filter_eq_self.mpr
          intro x hx
          simp only [decide_eq_true_eq]
          intro hxn
          exact hnd.1 (by rw [← hpn, ← hxn] at *; exact List.mem_map_of_mem _ hx)
        unfold dropHold at this
        rw [this]
        rfl
      · have hqn : q.1 ≠ n := by
          intro heq
          apply hnd.1
          rw [heq, ← hpn]
          exact List.mem_map_of_mem (fun x => x.1) hp2
        unfold dropHold
        rw [List.filter_cons, if_pos (by simp [hqn])]
        have := ih hnd.2 hp2 hpn
        unfold dropHold at this
        simp only [List.length_cons]
        omega

/-! ### update_item reductions and step inversions -/

theorem stateOf_building_find {s : Sched} {n : String}
    (h : stateOf s n = BState.building) :
    ∃ it, findItem s.items n = some it ∧ it.state = BState.building := by
  unfold stateOf at h
  cases hf : findItem s.items n with
  | none => rw [hf] at h; cases h
  | some it => rw [hf] at h; exact ⟨it, rfl, h⟩

/-- With the target item BUILDING, `update_item` to DONE re-runs
`update_running_items` on the mutated state. -/
theorem updateItem_done {s : Sched} {n : String}
    (hb : stateOf s n = BState.building) (msg : String) :
    updateItem s n (some BState.done) (some msg) = doneMid s n msg := by
  unfold updateItem doneMid donePre doneItems
  rw [hb]
  have hnu : needUpdate (some BState.done) BState.building = true := by decide
  rw [hnu]
  simp

/-- `update_item` to FAILED never re-runs `update_running_items`: by the
Python evaluation of line 186 documented at `needUpdate`, only DONE does. -/
theorem updateItem_failed (s : Sched) (n : String) (msg : String) :
    updateItem s n (some BState.failed) (some msg) = failMid s n msg := by
  unfold failMid
  unfold updateItem
  have hnu : needUpdate (some BState.failed) (stateOf s n) = false := by
    simp [needUpdate]
  rw [hnu]
  simp

/-- A status-only `update_item` never re-runs `update_running_items`. -/
theorem updateItem_status (s : Sched) (n : String) (msg : String) :
    updateItem s n none (some msg) = statusMid s n msg := by
  unfold statusMid
  unfold updateItem
  have hnu : needUpdate none (stateOf s n) = false := by simp [needUpdate]
  rw [hnu]
  simp

theorem step_start_inv {s s2 : Sched} {n : String}
    (h : stepFn s (Ev.start n) = some s2) :
    ∃ i, n ∈ s.pending ∧ firstFree s.slots = some i ∧
      s2 = { s with pending := s.pending.erase n,
                    slots := s.slots.set i true,
                    holding := s.holding ++ [(n, i)] } := by
  simp only [stepFn] at h
  by_cases hp : n ∈ s.pending
  · rw [if_pos hp] at h
    cases hff : firstFree s.slots with
    | none => rw [hff] at h; cases h
    | some i =>
        rw [hff] at h
        cases h
        exact ⟨i, hp, rfl, rfl⟩
  · rw [if_neg hp] at h
    cases h

theorem step_finishDone_inv {s s2 : Sched} {n msg : String}
    (h : stepFn s (Ev.finishDone n msg) = some s2) :
    ∃ p, s.holding.find? (fun q => decide (q.1 = n)) = some p ∧
      stateOf s n = BState.building ∧
      s2 = { updateItem s n (some BState.done) (some msg) with
              slots := (updateItem s n (some BState.done) (some msg)).slots.set p.2 false,
              holding := dropHold (updateItem s n (some BState.done) (some msg)).holding n } := by
  simp only [stepFn] at h
  cases hfind : s.holding.find? (fun q => decide (q.1 = n)) with
  | none => rw [hfind] at h; cases h
  | some p =>
      simp only [hfind] at h
      by_cases hb : stateOf s n = BState.building
      · rw [if_pos hb] at h
        cases h
        exact ⟨p, rfl, hb, rfl⟩
      · rw [if_neg hb] at h
        cases h

theorem step_finishFailed_inv {s s2 : Sched} {n msg : String}
    (h : stepFn s (Ev.finishFailed n msg) = some s2) :
    ∃ p, s.holding.find? (fun q => decide (q.1 = n)) = some p ∧
      stateOf s n = BState.building ∧
      s2 = { updateItem s n (some BState.failed) (some msg) with
              slots := (updateItem s n (some BState.failed) (some msg)).slots ++ [false],
              holding := dropHold (updateItem s n (some BState.failed) (some msg)).holding n } := by
  simp only [stepFn] at h
  cases hfind : s.holding.find? (fun q => decide (q.1 = n)) with
  | none => rw [hfind] at h; cases h
  | some p =>
      simp only [hfind] at h
      by_cases hb : stateOf s n = BState.building
      · rw [if_pos hb] at h
        cases h
        exact ⟨p, rfl, hb, rfl⟩
      · rw [if_neg hb] at h
        cases h

theorem step_finishStuck_inv {s s2 : Sched} {n : String}
    (h : stepFn s (Ev.finishStuck n) = some s2) :
    ∃ p, s.holding.find? (fun q => decide (q.1 = n)) = some p ∧
      stateOf s n = BState.building ∧
      s2 = { stuckMid s n with
              slots := (stuckMid s n).slots ++ [false],
              holding := dropHold (stuckMid s n).holding n } := by
  simp only [stepFn] at h
  cases hfind : s.holding.find? (fun q => decide (q.1 = n)) with
  | none => rw [hfind] at h; cases h
  | some p =>
      simp only [hfind] at h
      by_cases hb : stateOf s n = BState.building
      · rw [if_pos hb] at h
        cases h
        exact ⟨p, rfl, hb, rfl⟩
      · rw [if_neg hb] at h
        cases h

theorem step_backendStatus_inv {s s2 : Sched} {n msg : String}
    (h : stepFn s (Ev.backendStatus n msg) = some s2) :
    ∃ p, s.holding.find? (fun q => decide (q.1 = n)) = some p ∧
      stateOf s n = BState.building ∧
      s2 = updateItem s n none (some msg) := by
  simp only [stepFn] at h
  cases hfind : s.holding.find? (fun q => decide (q.1 = n)) with
  | none => rw [hfind] at h; cases h
  | some p =>
      simp only [hfind] at h
      by_cases hb : stateOf s n = BState.building
      · rw [if_pos hb] at h
        cases h
        exact ⟨p, rfl, hb, rfl⟩
      · rw [if_neg hb] at h
        cases h

/-! ### Invariant transfer through a single update_item field assignment -/

theorem forall2_map_rel_mem {α : Type} {R : α → α → Prop} (g : α → α) :
    ∀ l : List α, (∀ a ∈ l, R a (g a)) → List.Forall₂ R l (l.map g)
  | [], _ => List.Forall₂.nil
  | x :: rest, h =>
      List.Forall₂.cons (h x (List.mem_cons_self x rest))
        (forall2_map_rel_mem g rest (fun a ha => h a (List.mem_cons_of_mem x ha)))

/-- Rewriting the unique BUILDING item named `n` to any state other than DONE
preserves the done-view of the table. -/
theorem dv_uif {items : List BuildItem} {n : String} {it : BuildItem}
    (hnd : (items.map (fun x => x.name)).Nodup)
    (hf : findItem items n = some it) (hb : it.state = BState.building)
    {st : Option BState} (hst : st.getD it.state ≠ BState.done)
    (msg : Option String) :
    List.Forall₂ DV items (updateItemFields items n st msg) := by
  unfold updateItemFields
  apply forall2_map_rel_mem
  intro a ha
  by_cases han : a.name = n
  · have : a = it := by
      have := findItem_of_mem_nodup hnd ha han
      rw [hf] at this
      cases this
      rfl
    subst this
    rw [if_pos han]
    refine ⟨rfl, ?_⟩
    show a.state = BState.done ↔ st.getD a.state = BState.done
    rw [hb] at hst ⊢
    constructor
    · intro hc; cases hc
    · intro hc; exact absurd hc hst
  · rw [if_neg han]
    exact DV_refl a

/-- Rewriting the unique BUILDING item named `n` preserves the dependency
invariant, whatever state it moves to: a BUILDING item can never be a present
build-after dependency of a non-WAITING item (that would already violate the
invariant), so only the trivial cases remain. -/
theorem deps_uif {ba : List (String × List String)} {items : List BuildItem}
    {n : String} {it : BuildItem}
    (hnd : (items.map (fun x => x.name)).Nodup)
    (hf : findItem items n = some it) (hb : it.state = BState.building)
    (hdeps : DepsInv ba items) (st : Option BState) (msg : Option String) :
    DepsInv ba (updateItemFields items n st msg) := by
  intro it2 hmem hne d hdep o ho
  rcases List.mem_map.mp hmem with ⟨it0, hm0, rfl⟩
  have hname : (if it0.name = n then
      ({ it0 with state := st.getD it0.state, status := msg.getD it0.status } : BuildItem)
    else it0).name = it0.name := uif_fun_name n st msg it0
  have holddeps : ∀ e ∈ lookupAfter ba it0.name, ∀ o2,
      findItem items e = some o2 → o2.state = BState.done := by
    by_cases han : it0.name = n
    · have hit0 : it0 = it := by
        have := findItem_of_mem_nodup hnd hm0 han
        rw [hf] at this
        cases this
        rfl
      subst hit0
      exact hdeps it0 hm0 (by rw [hb]; intro hc; cases hc)
    · apply hdeps it0 hm0
      intro hw
      apply hne
      rw [if_neg han]
      exact hw
  rw [hname] at hdep
  by_cases hdn : d = n
  · subst hdn
    have := holddeps d hdep it hf
    rw [hb] at this
    cases this
  · rw [uif_find_ne hdn st msg] at ho
    exact holddeps d hdep o ho

/-- Rewriting the unique BUILDING item named `n` to a state other than DONE
or WAITING preserves the wait-status invariant: waiting items and their
not-ready lists are untouched. -/
theorem waits_uif {ba : List (String × List String)} {items : List BuildItem}
    {n : String} {it : BuildItem}
    (hnd : (items.map (fun x => x.name)).Nodup)
    (hf : findItem items n = some it) (hb : it.state = BState.building)
    {st : Option BState} (hstd : st.getD it.state ≠ BState.done)
    (hstw : st.getD it.state ≠ BState.waiting)
    (hwaits : WaitInv ba items) (msg : Option String) :
    WaitInv ba (updateItemFields items n st msg) := by
  intro it2 hmem hw2
  have hdv : List.Forall₂ DV items (updateItemFields items n st msg) :=
    dv_uif hnd hf hb hstd msg
  rcases List.mem_map.mp hmem with ⟨it0, hm0, rfl⟩
  by_cases han : it0.name = n
  · have hit0 : it0 = it := by
      have := findItem_of_mem_nodup hnd hm0 han
      rw [hf] at this
      cases this
      rfl
    subst hit0
    rw [if_pos han] at hw2
    exact absurd hw2 hstw
  · rw [if_neg han] at hw2 ⊢
    have hold := hwaits it0 hm0 hw2
    rw [← notReadyIn_congr hdv ba it0.name]
    exact hold

/-- A status-only field assignment leaves the building count unchanged. -/
theorem numBuilding_uif_none (items : List BuildItem) (n : String)
    (msg : Option String) :
    numBuilding (updateItemFields items n none msg) = numBuilding items := by
  unfold numBuilding updateItemFields
  rw [List.filter_map, List.length_map]
  congr 1
  apply List.filter_congr
  intro it _
  by_cases h : it.name = n <;> simp [h]

/-! ### Invariant preservation, event by event -/

theorem inv_start {ba : List (String × List String)} {pj : Nat} {s s2 : Sched}
    {n : String} (hI : Inv ba pj s) (h : stepFn s (Ev.start n) = some s2) :
    Inv ba pj s2 := by
  rcases step_start_inv h with ⟨i, hp, hff, rfl⟩
  rcases firstFree_spec s.slots i hff with ⟨hfi, _⟩
  have hil : i < s.slots.length := getElem?_some_lt hfi
  have hne_hold : ∀ p ∈ s.holding, p.1 ≠ n := fun p hp2 => hI.pendHold n hp p hp2
  have hidx_ne : ∀ p ∈ s.holding, p.2 ≠ i := by
    intro p hp2 heq
    have hv := hI.holdIdxValid p hp2
    rw [heq, hfi] at hv
    cases hv
  have hcf : countFalse (s.slots.set i true) + 1 = countFalse s.slots :=
    countFalse_set_true s.slots i hfi
  have hlen : s.pending.length = (s.pending.erase n).length + 1 := by
    have h1 := List.length_erase_of_mem hp
    have h2 : s.pending ≠ [] := List.ne_nil_of_mem hp
    have h3 : 0 < s.pending.length := List.length_pos.mpr h2
    omega
  have hH1 : s.holding.length + 1 ≤ pj := by
    have h1 := hI.slotsFree
    have h2 := hI.holdLe
    omega
  exact {
    hba := hI.hba
    hpj := hI.hpj
    nodup := hI.nodup
    pendNodup := hI.pendNodup.erase n
    holdNodup := by
      show ((s.holding ++ [(n, i)]).map (fun q => q.1)).Nodup
      rw [List.map_append]
      rw [List.nodup_append]
      refine ⟨hI.holdNodup, List.nodup_singleton n, ?_⟩
      intro a ha hb2
      rcases List.mem_map.mp ha with ⟨q, hq, rfl⟩
      rcases List.mem_singleton.mp hb2 with h
      exact hne_hold q hq h
    pendHold := by
      intro m hm q hq
      have hmp : m ∈ s.pending := List.mem_of_mem_erase hm
      rcases List.mem_append.mp hq with hq1 | hq2
      · exact hI.pendHold m hmp q hq1
      · rcases List.mem_singleton.mp hq2 with rfl
        show n ≠ m
        intro heq
        rw [heq] at hm
        exact (hI.pendNodup.mem_erase_iff.mp hm).1 rfl
    pendBuilding := fun m hm =>
      hI.pendBuilding m (List.mem_of_mem_erase hm)
    holdBuilding := by
      intro q hq
      rcases List.mem_append.mp hq with hq1 | hq2
      · exact hI.holdBuilding q hq1
      · rcases List.mem_singleton.mp hq2 with rfl
        exact hI.pendBuilding n hp
    countEq := by
      show numBuilding s.items
        = (s.pending.erase n).length + (s.holding ++ [(n, i)]).length
      rw [List.length_append]
      have := hI.countEq
      simp only [List.length_singleton]
      omega
    countLe := hI.countLe
    slotsFree := by
      show countFalse (s.slots.set i true) = pj - (s.holding ++ [(n, i)]).length
      rw [List.length_append]
      have h1 := hI.slotsFree
      simp only [List.length_singleton]
      omega
    holdLe := by
      show (s.holding ++ [(n, i)]).length ≤ pj
      rw [List.length_append]
      simpa using hH1
    holdIdxNodup := by
      show ((s.holding ++ [(n, i)]).map (fun q => q.2)).Nodup
      rw [List.map_append, List.nodup_append]
      refine ⟨hI.holdIdxNodup, List.nodup_singleton i, ?_⟩
      intro a ha hb2
      rcases List.mem_map.mp ha with ⟨q, hq, rfl⟩
      rcases List.mem_singleton.mp hb2 with h
      exact hidx_ne q hq h
    holdIdxValid := by
      intro q hq
      rcases List.mem_append.mp hq with hq1 | hq2
      · show (s.slots.set i true)[q.2]? = some true
        rw [List.getElem?_set_ne (fun heq => hidx_ne q hq1 heq.symm)]
        exact hI.holdIdxValid q hq1
      · rcases List.mem_singleton.mp hq2 with rfl
        show (s.slots.set i true)[i]? = some true
        exact List.getElem?_set_self hil
    deps := hI.deps
    waits := hI.waits }

theorem inv_finishDone {ba : List (String × List String)} {pj : Nat}
    {s s2 : Sched} {n msg : String} (hI : Inv ba pj s)
    (h : stepFn s (Ev.finishDone n msg) = some s2) : Inv ba pj s2 := by
  rcases step_finishDone_inv h with ⟨p, hfind, hb, rfl⟩
  rcases holdFind_mem hfind with ⟨hpmem, hpn⟩
  rcases stateOf_building_find hb with ⟨it, hfit, hitb⟩
  rw [updateItem_done hb msg]
  have hstne : (some BState.done).getD it.state ≠ BState.building :=
    fun hc => BState.noConfusion hc
  have hMnum : numBuilding (doneItems s n msg) + 1 = numBuilding s.items :=
    uif_numBuilding hI.nodup hfit hitb hstne (some msg)
  have hMnames : (doneItems s n msg).map (fun x => x.name)
      = s.items.map (fun x => x.name) :=
    uif_names s.items n (some BState.done) (some msg)
  have hMnodup : ((doneItems s n msg).map (fun x => x.name)).Nodup := by
    rw [hMnames]; exact hI.nodup
  have hMnodup2 : ((donePre s n msg).items.map (fun x => x.name)).Nodup := hMnodup
  have hMdeps : DepsInv ba (doneItems s n msg) :=
    deps_uif hI.nodup hfit hitb hI.deps (some BState.done) (some msg)
  have hmne : ∀ m ∈ s.pending, m ≠ n := by
    intro m hm heq
    exact hI.pendHold m hm p hpmem (by rw [hpn, heq])
  have hMfind : ∀ m ∈ s.pending, ∃ itm,
      findItem (donePre s n msg).items m = some itm ∧
        itm.state = BState.building := by
    intro m hm
    rcases hI.pendBuilding m hm with ⟨itm, hfm, hbm⟩
    refine ⟨itm, ?_, hbm⟩
    show findItem (doneItems s n msg) m = some itm
    unfold doneItems
    rw [uif_find_ne (hmne m hm) _ _]
    exact hfm
  have hQfind : ∀ q ∈ s.holding, q.1 ≠ n → ∃ itq,
      findItem (donePre s n msg).items q.1 = some itq ∧
        itq.state = BState.building := by
    intro q hq hqn
    rcases hI.holdBuilding q hq with ⟨itq, hfq, hbq⟩
    refine ⟨itq, ?_, hbq⟩
    show findItem (doneItems s n msg) q.1 = some itq
    unfold doneItems
    rw [uif_find_ne hqn _ _]
    exact hfq
  have hdropLen : (dropHold s.holding n).length + 1 = s.holding.length :=
    dropHold_length hI.holdNodup hpmem hpn
  have hQne : ∀ q ∈ dropHold s.holding n, q.2 ≠ p.2 := by
    intro q hq heq
    rcases mem_dropHold.mp hq with ⟨hq1, hq2⟩
    have hqp : q = p := List.inj_on_of_nodup_map hI.holdIdxNodup hq1 hpmem heq
    rw [hqp] at hq2
    exact hq2 hpn
  have hmid_holding : (doneMid s n msg).holding = s.holding := rfl
  have hmid_slots : (doneMid s n msg).slots = s.slots := rfl
  have hmid_pending : (doneMid s n msg).pending
      = s.pending ++ launchedOf (donePre s n msg) := uri_pending (donePre s n msg)
  exact {
    hba := hI.hba
    hpj := hI.hpj
    nodup := by
      show ((doneMid s n msg).items.map (fun x => x.name)).Nodup
      unfold doneMid
      rw [uri_names]
      exact hMnodup
    pendNodup := by
      show (doneMid s n msg).pending.Nodup
      rw [hmid_pending, List.nodup_append]
      refine ⟨hI.pendNodup, uri_launched_nodup hMnodup2, ?_⟩
      intro m hm hmL
      rcases hMfind m hm with ⟨itm, hfm, hbm⟩
      exact uri_launched_not_building hMnodup2 hfm hbm hmL
    holdNodup := by
      show ((dropHold (doneMid s n msg).holding n).map (fun q => q.1)).Nodup
      rw [hmid_holding]
      exact hI.holdNodup.sublist
        (List.Sublist.map (fun q => q.1) (dropHold_sublist s.holding n))
    pendHold := by
      intro m hm q hq
      rw [hmid_holding] at hq
      have hm2 : m ∈ s.pending ++ launchedOf (donePre s n msg) := by
        rw [← hmid_pending]
        exact hm
      rcases mem_dropHold.mp hq with ⟨hq1, hq2⟩
      rcases List.mem_append.mp hm2 with hm3 | hm3
      · exact hI.pendHold m hm3 q hq1
      · intro heq
        rcases hQfind q hq1 hq2 with ⟨itq, hfq, hbq⟩
        rw [heq] at hfq
        exact uri_launched_not_building hMnodup2 hfq hbq hm3
    pendBuilding := by
      intro m hm
      have hm2 : m ∈ s.pending ++ launchedOf (donePre s n msg) := by
        rw [← hmid_pending]
        exact hm
      show ∃ itm, findItem (doneMid s n msg).items m = some itm ∧
        itm.state = BState.building
      unfold doneMid
      rcases List.mem_append.mp hm2 with hm3 | hm3
      · rcases hMfind m hm3 with ⟨itm, hfm, hbm⟩
        refine ⟨itm, ?_, hbm⟩
        exact uri_find_stable hfm
          (by rw [hbm]; intro hc; cases hc) (by rw [hbm]; intro hc; cases hc)
      · exact uri_launched_building hMnodup2 hm3
    holdBuilding := by
      intro q hq
      rw [hmid_holding] at hq
      rcases mem_dropHold.mp hq with ⟨hq1, hq2⟩
      rcases hQfind q hq1 hq2 with ⟨itq, hfq, hbq⟩
      refine ⟨itq, ?_, hbq⟩
      show findItem (doneMid s n msg).items q.1 = some itq
      unfold doneMid
      exact uri_find_stable hfq
        (by rw [hbq]; intro hc; cases hc) (by rw [hbq]; intro hc; cases hc)
    countEq := by
      show numBuilding (doneMid s n msg).items
        = (doneMid s n msg).pending.length + (dropHold (doneMid s n msg).holding n).length
      rw [hmid_pending, hmid_holding, List.length_append]
      have huri : numBuilding (doneMid s n msg).items
          = numBuilding (doneItems s n msg) + (launchedOf (donePre s n msg)).length := by
        unfold doneMid
        exact uri_numBuilding (donePre s n msg)
      have hc := hI.countEq
      omega
    countLe := by
      show numBuilding (doneMid s n msg).items ≤ pj
      have hle : numBuilding (donePre s n msg).items ≤ (donePre s n msg).parallelJobs := by
        show numBuilding (doneItems s n msg) ≤ s.parallelJobs
        have hc := hI.countLe
        have hp2 := hI.hpj
        omega
      have h2 := uri_numBuilding_le hle
      have hp2 := hI.hpj
      have h3 : (donePre s n msg).parallelJobs = s.parallelJobs := rfl
      rw [h3] at h2
      show numBuilding (updateRunningItems (donePre s n msg)).items ≤ pj
      omega
    slotsFree := by
      show countFalse ((doneMid s n msg).slots.set p.2 false)
        = pj - (dropHold (doneMid s n msg).holding n).length
      rw [hmid_slots, hmid_holding]
      rw [countFalse_set_false s.slots p.2 (hI.holdIdxValid p hpmem)]
      have h1 := hI.slotsFree
      have h2 := hI.holdLe
      omega
    holdLe := by
      show (dropHold (doneMid s n msg).holding n).length ≤ pj
      rw [hmid_holding]
      have := hI.holdLe
      omega
    holdIdxNodup := by
      show ((dropHold (doneMid s n msg).holding n).map (fun q => q.2)).Nodup
      rw [hmid_holding]
      exact hI.holdIdxNodup.sublist
        (List.Sublist.map (fun q => q.2) (dropHold_sublist s.holding n))
    holdIdxValid := by
      intro q hq
      rw [hmid_holding] at hq
      show ((doneMid s n msg).slots.set p.2 false)[q.2]? = some true
      rw [hmid_slots]
      rw [List.getElem?_set_ne (fun heq => hQne q hq heq.symm)]
      exact hI.holdIdxValid q (mem_dropHold.mp hq).1
    deps := by
      show DepsInv ba (doneMid s n msg).items
      unfold doneMid
      exact uri_deps hI.hba hMdeps
    waits := by
      show WaitInv ba (doneMid s n msg).items
      unfold doneMid
      exact uri_waits hI.hba }

theorem inv_finishFailed {ba : List (String × List String)} {pj : Nat}
    {s s2 : Sched} {n msg : String} (hI : Inv ba pj s)
    (h : stepFn s (Ev.finishFailed n msg) = some s2) : Inv ba pj s2 := by
  rcases step_finishFailed_inv h with ⟨p, hfind, hb, rfl⟩
  rcases holdFind_mem hfind with ⟨hpmem, hpn⟩
  rcases stateOf_building_find hb with ⟨it, hfit, hitb⟩
  rw [updateItem_failed s n msg]
  have hstne : (some BState.failed).getD it.state ≠ BState.building :=
    fun hc => BState.noConfusion hc
  have hstnd : (some BState.failed).getD it.state ≠ BState.done :=
    fun hc => BState.noConfusion hc
  have hstnw : (some BState.failed).getD it.state ≠ BState.waiting :=
    fun hc => BState.noConfusion hc
  have hMnum : numBuilding (failMid s n msg).items + 1 = numBuilding s.items :=
    uif_numBuilding hI.nodup hfit hitb hstne (some msg)
  have hMnodup : ((failMid s n msg).items.map (fun x => x.name)).Nodup := by
    show ((updateItemFields s.items n (some BState.failed) (some msg)).map
      (fun x => x.name)).Nodup
    rw [uif_names]
    exact hI.nodup
  have hmne : ∀ m ∈ s.pending, m ≠ n := by
    intro m hm heq
    exact hI.pendHold m hm p hpmem (by rw [hpn, heq])
  have hdropLen : (dropHold s.holding n).length + 1 = s.holding.length :=
    dropHold_length hI.holdNodup hpmem hpn
  exact {
    hba := hI.hba
    hpj := hI.hpj
    nodup := hMnodup
    pendNodup := hI.pendNodup
    holdNodup := by
      show ((dropHold (failMid s n msg).holding n).map (fun q => q.1)).Nodup
      exact hI.holdNodup.sublist
        (List.Sublist.map (fun q => q.1) (dropHold_sublist s.holding n))
    pendHold := by
      intro m hm q hq
      rcases mem_dropHold.mp hq with ⟨hq1, _⟩
      exact hI.pendHold m hm q hq1
    pendBuilding := by
      intro m hm
      rcases hI.pendBuilding m hm with ⟨itm, hfm, hbm⟩
      refine ⟨itm, ?_, hbm⟩
      show findItem (updateItemFields s.items n (some BState.failed) (some msg)) m
        = some itm
      rw [uif_find_ne (hmne m hm) _ _]
      exact hfm
    holdBuilding := by
      intro q hq
      rcases mem_dropHold.mp hq with ⟨hq1, hq2⟩
      rcases hI.holdBuilding q hq1 with ⟨itq, hfq, hbq⟩
      refine ⟨itq, ?_, hbq⟩
      show findItem (updateItemFields s.items n (some BState.failed) (some msg)) q.1
        = some itq
      rw [uif_find_ne hq2 _ _]
      exact hfq
    countEq := by
      show numBuilding (failMid s n msg).items
        = (failMid s n msg).pending.length + (dropHold (failMid s n msg).holding n).length
      have h1 : (failMid s n msg).pending = s.pending := rfl
      have h2 : (failMid s n msg).holding = s.holding := rfl
      rw [h1, h2]
      have hc := hI.countEq
      omega
    countLe := by
      show numBuilding (failMid s n msg).items ≤ pj
      have := hI.countLe
      omega
    slotsFree := by
      show countFalse ((failMid s n msg).slots ++ [false])
        = pj - (dropHold (failMid s n msg).holding n).length
      have h1 : (failMid s n msg).slots = s.slots := rfl
      have h2 : (failMid s n msg).holding = s.holding := rfl
      rw [h1, h2, countFalse_append_false]
      have h3 := hI.slotsFree
      have h4 := hI.holdLe
      omega
    holdLe := by
      show (dropHold (failMid s n msg).holding n).length ≤ pj
      have := hI.holdLe
      have h2 : (failMid s n msg).holding = s.holding := rfl
      rw [h2]
      omega
    holdIdxNodup := by
      show ((dropHold (failMid s n msg).holding n).map (fun q => q.2)).Nodup
      exact hI.holdIdxNodup.sublist
        (List.Sublist.map (fun q => q.2) (dropHold_sublist s.holding n))
    holdIdxValid := by
      intro q hq
      rcases mem_dropHold.mp hq with ⟨hq1, _⟩
      have hv := hI.holdIdxValid q hq1
      show ((failMid s n msg).slots ++ [false])[q.2]? = some true
      have h1 : (failMid s n msg).slots = s.slots := rfl
      rw [h1, List.getElem?_append_left (getElem?_some_lt hv)]
      exact hv
    deps := by
      show DepsInv ba (updateItemFields s.items n (some BState.failed) (some msg))
      exact deps_uif hI.nodup hfit hitb hI.deps (some BState.failed) (some msg)
    waits := by
      show WaitInv ba (updateItemFields s.items n (some BState.failed) (some msg))
      exact waits_uif hI.nodup hfit hitb hstnd hstnw hI.waits (some msg) }

theorem inv_finishStuck {ba : List (String × List String)} {pj : Nat}
    {s s2 : Sched} {n : String} (hI : Inv ba pj s)
    (h : stepFn s (Ev.finishStuck n) = some s2) : Inv ba pj s2 := by
  rcases step_finishStuck_inv h with ⟨p, hfind, hb, rfl⟩
  rcases holdFind_mem hfind with ⟨hpmem, hpn⟩
  rcases stateOf_building_find hb with ⟨it, hfit, hitb⟩
  have hstne : (some BState.failed).getD it.state ≠ BState.building :=
    fun hc => BState.noConfusion hc
  have hMnum : numBuilding (stuckItems s n) + 1 = numBuilding s.items :=
    uif_numBuilding hI.nodup hfit hitb hstne _
  have hMnodup : ((stuckItems s n).map (fun x => x.name)).Nodup := by
    show ((updateItemFields s.items n (some BState.failed) _).map
      (fun x => x.name)).Nodup
    rw [uif_names]
    exact hI.nodup
  have hMnodup2 : ((stuckPre s n).items.map (fun x => x.name)).Nodup := hMnodup
  have hMdeps : DepsInv ba (stuckItems s n) :=
    deps_uif hI.nodup hfit hitb hI.deps (some BState.failed) _
  have hmne : ∀ m ∈ s.pending, m ≠ n := by
    intro m hm heq
    exact hI.pendHold m hm p hpmem (by rw [hpn, heq])
  have hMfind : ∀ m ∈ s.pending, ∃ itm,
      findItem (stuckPre s n).items m = some itm ∧
        itm.state = BState.building := by
    intro m hm
    rcases hI.pendBuilding m hm with ⟨itm, hfm, hbm⟩
    refine ⟨itm, ?_, hbm⟩
    show findItem (stuckItems s n) m = some itm
    unfold stuckItems
    rw [uif_find_ne (hmne m hm) _ _]
    exact hfm
  have hQfind : ∀ q ∈ s.holding, q.1 ≠ n → ∃ itq,
      findItem (stuckPre s n).items q.1 = some itq ∧
        itq.state = BState.building := by
    intro q hq hqn
    rcases hI.holdBuilding q hq with ⟨itq, hfq, hbq⟩
    refine ⟨itq, ?_, hbq⟩
    show findItem (stuckItems s n) q.1 = some itq
    unfold stuckItems
    rw [uif_find_ne hqn _ _]
    exact hfq
  have hdropLen : (dropHold s.holding n).length + 1 = s.holding.length :=
    dropHold_length hI.holdNodup hpmem hpn
  have hmid_holding : (stuckMid s n).holding = s.holding := rfl
  have hmid_slots : (stuckMid s n).slots = s.slots := rfl
  have hmid_pending : (stuckMid s n).pending
      = s.pending ++ launchedOf (stuckPre s n) := uri_pending (stuckPre s n)
  exact {
    hba := hI.hba
    hpj := hI.hpj
    nodup := by
      show ((stuckMid s n).items.map (fun x => x.name)).Nodup
      unfold stuckMid
      rw [uri_names]
      exact hMnodup
    pendNodup := by
      show (stuckMid s n).pending.Nodup
      rw [hmid_pending, List.nodup_append]
      refine ⟨hI.pendNodup, uri_launched_nodup hMnodup2, ?_⟩
      intro m hm hmL
      rcases hMfind m hm with ⟨itm, hfm, hbm⟩
      exact uri_launched_not_building hMnodup2 hfm hbm hmL
    holdNodup := by
      show ((dropHold (stuckMid s n).holding n).map (fun q => q.1)).Nodup
      rw [hmid_holding]
      exact hI.holdNodup.sublist
        (List.Sublist.map (fun q => q.1) (dropHold_sublist s.holding n))
    pendHold := by
      intro m hm q hq
      rw [hmid_holding] at hq
      have hm2 : m ∈ s.pending ++ launchedOf (stuckPre s n) := by
        rw [← hmid_pending]
        exact hm
      rcases mem_dropHold.mp hq with ⟨hq1, hq2⟩
      rcases List.mem_append.mp hm2 with hm3 | hm3
      · exact hI.pendHold m hm3 q hq1
      · intro heq
        rcases hQfind q hq1 hq2 with ⟨itq, hfq, hbq⟩
        rw [heq] at hfq
        exact uri_launched_not_building hMnodup2 hfq hbq hm3
    pendBuilding := by
      intro m hm
      have hm2 : m ∈ s.pending ++ launchedOf (stuckPre s n) := by
        rw [← hmid_pending]
        exact hm
      show ∃ itm, findItem (stuckMid s n).items m = some itm ∧
        itm.state = BState.building
      unfold stuckMid
      rcases List.mem_append.mp hm2 with hm3 | hm3
      · rcases hMfind m hm3 with ⟨itm, hfm, hbm⟩
        refine ⟨itm, ?_, hbm⟩
        exact uri_find_stable hfm
          (by rw [hbm]; intro hc; cases hc) (by rw [hbm]; intro hc; cases hc)
      · exact uri_launched_building hMnodup2 hm3
    holdBuilding := by
      intro q hq
      rw [hmid_holding] at hq
      rcases mem_dropHold.mp hq with ⟨hq1, hq2⟩
      rcases hQfind q hq1 hq2 with ⟨itq, hfq, hbq⟩
      refine ⟨itq, ?_, hbq⟩
      show findItem (stuckMid s n).items q.1 = some itq
      unfold stuckMid
      exact uri_find_stable hfq
        (by rw [hbq]; intro hc; cases hc) (by rw [hbq]; intro hc; cases hc)
    countEq := by
      show numBuilding (stuckMid s n).items
        = (stuckMid s n).pending.length + (dropHold (stuckMid s n).holding n).length
      rw [hmid_pending, hmid_holding, List.length_append]
      have huri : numBuilding (stuckMid s n).items
          = numBuilding (stuckItems s n) + (launchedOf (stuckPre s n)).length := by
        unfold stuckMid
        exact uri_numBuilding (stuckPre s n)
      have hc := hI.countEq
      omega
    countLe := by
      have hle : numBuilding (stuckPre s n).items ≤ (stuckPre s n).parallelJobs := by
        show numBuilding (stuckItems s n) ≤ s.parallelJobs
        have hc := hI.countLe
        have hp2 := hI.hpj
        omega
      have h2 := uri_numBuilding_le hle
      have hp2 := hI.hpj
      have h3 : (stuckPre s n).parallelJobs = s.parallelJobs := rfl
      rw [h3] at h2
      show numBuilding (updateRunningItems (stuckPre s n)).items ≤ pj
      omega
    slotsFree := by
      show countFalse ((stuckMid s n).slots ++ [false])
        = pj - (dropHold (stuckMid s n).holding n).length
      rw [hmid_slots, hmid_holding, countFalse_append_false]
      have h1 := hI.slotsFree
      have h2 := hI.holdLe
      omega
    holdLe := by
      show (dropHold (stuckMid s n).holding n).length ≤ pj
      rw [hmid_holding]
      have := hI.holdLe
      omega
    holdIdxNodup := by
      show ((dropHold (stuckMid s n).holding n).map (fun q => q.2)).Nodup
      rw [hmid_holding]
      exact hI.holdIdxNodup.sublist
        (List.Sublist.map (fun q => q.2) (dropHold_sublist s.holding n))
    holdIdxValid := by
      intro q hq
      rw [hmid_holding] at hq
      rcases mem_dropHold.mp hq with ⟨hq1, _⟩
      have hv := hI.holdIdxValid q hq1
      show ((stuckMid s n).slots ++ [false])[q.2]? = some true
      rw [hmid_slots, List.getElem?_append_left (getElem?_some_lt hv)]
      exact hv
    deps := by
      show DepsInv ba (stuckMid s n).items
      unfold stuckMid
      exact uri_deps hI.hba hMdeps
    waits := by
      show WaitInv ba (stuckMid s n).items
      unfold stuckMid
      exact uri_waits hI.hba }

theorem inv_backendStatus {ba : List (String × List String)} {pj : Nat}
    {s s2 : Sched} {n msg : String} (hI : Inv ba pj s)
    (h : stepFn s (Ev.backendStatus n msg) = some s2) : Inv ba pj s2 := by
  rcases step_backendStatus_inv h with ⟨p, hfind, hb, rfl⟩
  rcases holdFind_mem hfind with ⟨hpmem, hpn⟩
  rcases stateOf_building_find hb with ⟨it, hfit, hitb⟩
  rw [updateItem_status s n msg]
  have hstnd : (none : Option BState).getD it.state ≠ BState.done := by
    rw [hitb]; intro hc; cases hc
  have hstnw : (none : Option BState).getD it.state ≠ BState.waiting := by
    rw [hitb]; intro hc; cases hc
  exact {
    hba := hI.hba
    hpj := hI.hpj
    nodup := by
      show ((updateItemFields s.items n none (some msg)).map (fun x => x.name)).Nodup
      rw [uif_names]
      exact hI.nodup
    pendNodup := hI.pendNodup
    holdNodup := hI.holdNodup
    pendHold := hI.pendHold
    pendBuilding := by
      intro m hm
      rcases hI.pendBuilding m hm with ⟨itm, hfm, hbm⟩
      have hmne : m ≠ n := by
        intro heq
        exact hI.pendHold m hm p hpmem (by rw [hpn, heq])
      refine ⟨itm, ?_, hbm⟩
      show findItem (updateItemFields s.items n none (some msg)) m = some itm
      rw [uif_find_ne hmne _ _]
      exact hfm
    holdBuilding := by
      intro q hq
      rcases hI.holdBuilding q hq with ⟨itq, hfq, hbq⟩
      by_cases hqn : q.1 = n
      · refine ⟨{ itq with status := msg }, ?_, hbq⟩
        show findItem (updateItemFields s.items n none (some msg)) q.1
          = some { itq with status := msg }
        rw [hqn]
        rw [uif_find_eq s.items n none (some msg)]
        rw [hqn] at hfq
        rw [hfq]
        rfl
      · refine ⟨itq, ?_, hbq⟩
        show findItem (updateItemFields s.items n none (some msg)) q.1 = some itq
        rw [uif_find_ne hqn _ _]
        exact hfq
    countEq := by
      show numBuilding (updateItemFields s.items n none (some msg))
        = s.pending.length + s.holding.length
      rw [numBuilding_uif_none]
      exact hI.countEq
    countLe := by
      show numBuilding (updateItemFields s.items n none (some msg)) ≤ pj
      rw [numBuilding_uif_none]
      exact hI.countLe
    slotsFree := hI.slotsFree
    holdLe := hI.holdLe
    holdIdxNodup := hI.holdIdxNodup
    holdIdxValid := hI.holdIdxValid
    deps := by
      show DepsInv ba (updateItemFields s.items n none (some msg))
      exact deps_uif hI.nodup hfit hitb hI.deps none (some msg)
    waits := by
      show WaitInv ba (updateItemFields s.items n none (some msg))
      exact waits_uif hI.nodup hfit hitb hstnd hstnw hI.waits (some msg) }

/-- One enabled event preserves the invariant. -/
theorem inv_step {ba : List (String × List String)} {pj : Nat} {s s2 : Sched}
    {e : Ev} (hI : Inv ba pj s) (h : stepFn s e = some s2) : Inv ba pj s2 := by
  cases e with
  | start n => exact inv_start hI h
  | finishDone n msg => exact inv_finishDone hI h
  | finishFailed n msg => exact inv_finishFailed hI h
  | finishStuck n => exact inv_finishStuck hI h
  | backendStatus n msg => exact inv_backendStatus hI h

/-- Any run of enabled events preserves the invariant. -/
theorem inv_run {ba : List (String × List String)} {pj : Nat} :
    ∀ (evs : List Ev) (s s2 : Sched), Inv ba pj s → run s evs = some s2 →
      Inv ba pj s2 := by
  intro evs
  induction evs with
  | nil =>
      intro s s2 hI h
      cases h
      exact hI
  | cons e evs ih =>
      intro s s2 hI h
      unfold run at h
      cases hstep : stepFn s e with
      | none => rw [hstep] at h; cases h
      | some s1 =>
          rw [hstep] at h
          exact ih s1 s2 (inv_step hI hstep) h

/-- The building count of the freshly initialized item table is zero. -/
theorem numBuilding_init (names : List String) :
    numBuilding (names.map (fun n =>
      ({ name := n, state := BState.waiting, status := "" } : BuildItem))) = 0 := by
  unfold numBuilding
  rw [List.filter_map]
  have h : (names.filter ((fun it => decide (it.state = BState.building)) ∘
      (fun n => ({ name := n, state := BState.waiting, status := "" } : BuildItem)))) = [] := by
    apply List.filter_eq_nil_iff.mpr
    intro a _
    simp
  rw [h]
  rfl

/-- Names of the freshly initialized item table. -/
theorem names_init (names : List String) :
    ((initSched ba pj names).items.map (fun it => it.name)) = names := by
  unfold initSched
  rw [List.map_map]
  exact List.map_id names

/-- The state reached by the first `update_running_items` call of `do_build`
satisfies the invariant. -/
theorem inv_init (ba : List (String × List String)) (pj : Nat)
    {names : List String} (hnd : names.Nodup) :
    Inv ba pj (startBuild (initSched ba pj names)) := by
  unfold startBuild
  have hnodup0 : ((initSched ba pj names).items.map (fun it => it.name)).Nodup := by
    rw [names_init]
    exact hnd
  have hnum0 : numBuilding (initSched ba pj names).items = 0 :=
    numBuilding_init names
  have hdeps0 : DepsInv ba (initSched ba pj names).items := by
    intro it hmem hne
    rcases List.mem_map.mp hmem with ⟨m, _, rfl⟩
    exact absurd rfl hne
  have hpend0 : (initSched ba pj names).pending = [] := rfl
  have hhold0 : (initSched ba pj names).holding = [] := rfl
  exact {
    hba := rfl
    hpj := rfl
    nodup := by
      rw [uri_names]
      exact hnodup0
    pendNodup := by
      rw [uri_pending, hpend0, List.nil_append]
      exact uri_launched_nodup hnodup0
    holdNodup := by
      rw [uri_holding, hhold0]
      exact List.nodup_nil
    pendHold := by
      intro m _ q hq
      rw [uri_holding, hhold0] at hq
      cases hq
    pendBuilding := by
      intro m hm
      rw [uri_pending, hpend0, List.nil_append] at hm
      exact uri_launched_building hnodup0 hm
    holdBuilding := by
      intro q hq
      rw [uri_holding, hhold0] at hq
      cases hq
    countEq := by
      rw [uri_numBuilding, uri_pending, uri_holding, hpend0, hhold0]
      simp [hnum0]
    countLe := by
      have hle : numBuilding (initSched ba pj names).items
          ≤ (initSched ba pj names).parallelJobs := by
        rw [hnum0]
        exact Nat.zero_le _
      have h2 := uri_numBuilding_le hle
      exact h2
    slotsFree := by
      rw [uri_slots, uri_holding, hhold0]
      show countFalse (List.replicate pj false) = pj - 0
      rw [countFalse_replicate]
      omega
    holdLe := by
      rw [uri_holding, hhold0]
      exact Nat.zero_le _
    holdIdxNodup := by
      rw [uri_holding, hhold0]
      exact List.nodup_nil
    holdIdxValid := by
      intro q hq
      rw [uri_holding, hhold0] at hq
      cases hq
    deps := uri_deps rfl hdeps0
    waits := uri_waits rfl }

/-- Every reachable state of a scheduling run on a batch with unique item
names satisfies the invariant. -/
theorem reachable_inv {ba : List (String × List String)} {pj : Nat}
    {names : List String} {s : Sched} (hnd : names.Nodup)
    (hr : Reachable ba pj names s) : Inv ba pj s := by
  rcases hr with ⟨evs, hrun⟩
  exact inv_run evs _ s (inv_init ba pj hnd) hrun

/-! ### Retired slots stay retired -/

/-- One event never frees or hands out an occupied slot index that no running
task holds: allocation takes the first unoccupied index, and the only freeing
write is a task freeing its own held index. -/
theorem retired_step {s s2 : Sched} {e : Ev} {i : Nat}
    (h : stepFn s e = some s2) (ht : s.slots[i]? = some true)
    (hu : ∀ p ∈ s.holding, p.2 ≠ i) :
    s2.slots[i]? = some true ∧ ∀ p ∈ s2.holding, p.2 ≠ i := by
  cases e with
  | start n =>
      rcases step_start_inv h with ⟨j, _, hff, rfl⟩
      rcases firstFree_spec s.slots j hff with ⟨hfj, _⟩
      have hji : j ≠ i := by
        intro heq
        rw [heq, ht] at hfj
        cases hfj
      constructor
      · show (s.slots.set j true)[i]? = some true
        rw [List.getElem?_set_ne hji]
        exact ht
      · intro p hp
        rcases List.mem_append.mp hp with hp1 | hp2
        · exact hu p hp1
        · rcases List.mem_singleton.mp hp2 with rfl
          exact hji
  | finishDone n msg =>
      rcases step_finishDone_inv h with ⟨p, hfind, hb, rfl⟩
      rcases holdFind_mem hfind with ⟨hpmem, _⟩
      rw [updateItem_done hb msg]
      have hpi : p.2 ≠ i := hu p hpmem
      constructor
      · show ((doneMid s n msg).slots.set p.2 false)[i]? = some true
        have hm : (doneMid s n msg).slots = s.slots := rfl
        rw [hm, List.getElem?_set_ne hpi]
        exact ht
      · intro q hq
        have hm : (doneMid s n msg).holding = s.holding := rfl
        rw [hm] at hq
        exact hu q (mem_dropHold.mp hq).1
  | finishFailed n msg =>
      rcases step_finishFailed_inv h with ⟨p, hfind, hb, rfl⟩
      rw [updateItem_failed s n msg]
      constructor
      · show ((failMid s n msg).slots ++ [false])[i]? = some true
        have hm : (failMid s n msg).slots = s.slots := rfl
        rw [hm, List.getElem?_append_left (getElem?_some_lt ht)]
        exact ht
      · intro q hq
        have hm : (failMid s n msg).holding = s.holding := rfl
        rw [hm] at hq
        exact hu q (mem_dropHold.mp hq).1
  | finishStuck n =>
      rcases step_finishStuck_inv h with ⟨p, hfind, hb, rfl⟩
      constructor
      · show ((stuckMid s n).slots ++ [false])[i]? = some true
        have hm : (stuckMid s n).slots = s.slots := rfl
        rw [hm, List.getElem?_append_left (getElem?_some_lt ht)]
        exact ht
      · intro q hq
        have hm : (stuckMid s n).holding = s.holding := rfl
        rw [hm] at hq
        exact hu q (mem_dropHold.mp hq).1
  | backendStatus n msg =>
      rcases step_backendStatus_inv h with ⟨p, hfind, hb, rfl⟩
      rw [updateItem_status s n msg]
      exact ⟨ht, hu⟩

/-- Over any run, an occupied slot index held by no running task stays
occupied and is never handed to another task. -/
theorem retired_persists {i : Nat} :
    ∀ (evs : List Ev) (s s2 : Sched), run s evs = some s2 →
      s.slots[i]? = some true → (∀ p ∈ s.holding, p.2 ≠ i) →
        s2.slots[i]? = some true ∧ ∀ p ∈ s2.holding, p.2 ≠ i := by
  intro evs
  induction evs with
  | nil =>
      intro s s2 h ht hu
      cases h
      exact ⟨ht, hu⟩
  | cons e evs ih =>
      intro s s2 h ht hu
      unfold run at h
      cases hstep : stepFn s e with
      | none => rw [hstep] at h; cases h
      | some s1 =>
          rw [hstep] at h
          rcases retired_step hstep ht hu with ⟨ht1, hu1⟩
          exact ih s1 s2 h ht1 hu1

/-! ## Claim theorems -/

/-- C1: in every reachable state of a scheduling run, an item in BUILDING has
every build-after dependency that names a batch item already in DONE:
`update_running_items` promotes a WAITING item to READY only when every
present dependency is DONE, only READY items are moved to BUILDING, and DONE
is terminal, so A is never BUILDING before B is DONE. -/
theorem claim_C1_dependency_ordering {ba : List (String × List String)}
    {pj : Nat} {names : List String} {s : Sched} {A o : BuildItem} {b : String}
    (hnd : names.Nodup) (hr : Reachable ba pj names s)
    (hA : A ∈ s.items) (hbuild : A.state = BState.building)
    (hdep : b ∈ lookupAfter s.buildAfter A.name)
    (ho : findItem s.items b = some o) : o.state = BState.done := by
  have hI := reachable_inv hnd hr
  have hdep2 : b ∈ lookupAfter ba A.name := by rw [← hI.hba]; exact hdep
  exact hI.deps A hA (by rw [hbuild]; intro hc; cases hc) b hdep2 o ho

/-- C3: in every reachable state of a scheduling run, the number of items in
BUILDING is at most the configured `parallel_jobs`: `update_running_items`
counts the BUILDING items and promotes a READY item only while that count is
strictly below the limit. -/
theorem claim_C3_bounded_parallelism {ba : List (String × List String)}
    {pj : Nat} {names : List String} {s : Sched}
    (hnd : names.Nodup) (hr : Reachable ba pj names s) :
    numBuilding s.items ≤ s.parallelJobs := by
  have hI := reachable_inv hnd hr
  rw [hI.hpj]
  exact hI.countLe

/-- C7: if a backend `build_item` coroutine returns while its item is still
BUILDING, `run_build_item` (lines 221-224) converts the item to FAILED with
the synthetic status text instead of leaving it non-terminal. -/
theorem claim_C7_stuck_conversion {s : Sched} {n : String} {p : String × Nat}
    (hfind : s.holding.find? (fun q => decide (q.1 = n)) = some p)
    (hb : stateOf s n = BState.building) :
    ∃ s2, stepFn s (Ev.finishStuck n) = some s2 ∧
      stateOf s2 n = BState.failed ∧
      statusOf s2 n = "Build method exited in RUNNING state" := by
  rcases stateOf_building_find hb with ⟨it, hfit, hitb⟩
  have hstep : stepFn s (Ev.finishStuck n) = some { stuckMid s n with slots := (stuckMid s n).slots ++ [false], holding := dropHold (stuckMid s n).holding n } := by
    simp only [stepFn]
    rw [hfind, if_pos hb]
    rfl
  have hfind2 : findItem (stuckMid s n).items n = some { it with state := BState.failed, status := "Build method exited in RUNNING state" } := by
    unfold stuckMid
    apply uri_find_stable
    · show findItem (stuckItems s n) n = _
      unfold stuckItems
      rw [uif_find_eq, hfit]
      rfl
    · intro hc; cases hc
    · intro hc; cases hc
  have hitems : ({ stuckMid s n with slots := (stuckMid s n).slots ++ [false], holding := dropHold (stuckMid s n).holding n } : Sched).items = (stuckMid s n).items := rfl
  refine ⟨_, hstep, ?_, ?_⟩
  · unfold stateOf
    rw [hitems, hfind2]
  · unfold statusOf
    rw [hitems, hfind2]

/-- C10: in every reachable state, at most `parallel_jobs` tasks hold slots,
the slot pool keeps exactly `parallel_jobs` unoccupied slots beyond the
retired ones, and whenever a created task is about to scan for a slot (its
name is pending) an unoccupied slot exists, so the `assert False` branch of
`run_build_item` is unreachable. -/
theorem claim_C10_slot_available {ba : List (String × List String)}
    {pj : Nat} {names : List String} {s : Sched}
    (hnd : names.Nodup) (hr : Reachable ba pj names s) :
    s.holding.length ≤ pj ∧
      countFalse s.slots = pj - s.holding.length ∧
      (s.pending ≠ [] → ∃ i, firstFree s.slots = some i) := by
  have hI := reachable_inv hnd hr
  refine ⟨hI.holdLe, hI.slotsFree, ?_⟩
  intro hne
  apply firstFree_of_pos
  have hp : 0 < s.pending.length := List.length_pos.mpr hne
  have h1 := hI.countEq
  have h2 := hI.countLe
  have h3 := hI.slotsFree
  have h4 := hI.holdLe
  omega

/-- C6: slot lifecycle of `run_build_item`.  A starting task takes the first
unoccupied slot and marks it occupied; a task finishing in DONE frees exactly
its slot; a task finishing in any other terminal outcome — a FAILED state
reported by the backend (`Ev.finishFailed`) or the synthetic conversion of a
backend that returned still BUILDING (`Ev.finishStuck`) — leaves its slot
occupied, appends exactly one fresh unoccupied slot, and the abandoned slot
is never freed or handed to another task for the rest of the run. -/
theorem claim_C6_slot_lifecycle {ba : List (String × List String)}
    {pj : Nat} {names : List String} {s : Sched}
    (hnd : names.Nodup) (hr : Reachable ba pj names s) :
    (∀ n ∈ s.pending, ∃ i,
        firstFree s.slots = some i ∧ s.slots[i]? = some false ∧
        (∀ j, j < i → s.slots[j]? = some true) ∧
        ∃ s2, stepFn s (Ev.start n) = some s2 ∧
          s2.slots = s.slots.set i true ∧ (n, i) ∈ s2.holding) ∧
    (∀ n i msg, (n, i) ∈ s.holding → stateOf s n = BState.building →
        ∃ s2, stepFn s (Ev.finishDone n msg) = some s2 ∧
          s2.slots = s.slots.set i false ∧ s2.slots[i]? = some false) ∧
    (∀ n i msg, (n, i) ∈ s.holding → stateOf s n = BState.building →
        ∃ s2, stepFn s (Ev.finishFailed n msg) = some s2 ∧
          s2.slots = s.slots ++ [false] ∧ s2.slots[i]? = some true ∧
          s2.slots.length = s.slots.length + 1 ∧ s2.slots[s.slots.length]? = some false) ∧
    (∀ n i, (n, i) ∈ s.holding → stateOf s n = BState.building →
        ∃ s2, stepFn s (Ev.finishStuck n) = some s2 ∧
          s2.slots = s.slots ++ [false] ∧ s2.slots[i]? = some true ∧
          s2.slots.length = s.slots.length + 1 ∧ s2.slots[s.slots.length]? = some false) ∧
    (∀ i, s.slots[i]? = some true → (∀ p ∈ s.holding, p.2 ≠ i) →
        ∀ evs s2, run s evs = some s2 →
          s2.slots[i]? = some true ∧ ∀ p ∈ s2.holding, p.2 ≠ i) := by
  have hI := reachable_inv hnd hr
  refine ⟨?_, ?_, ?_, ?_, ?_⟩
  · intro n hn
    have hex : ∃ i, firstFree s.slots = some i := by
      apply firstFree_of_pos
      have hp : 0 < s.pending.length := List.length_pos.mpr (List.ne_nil_of_mem hn)
      have h1 := hI.countEq
      have h2 := hI.countLe
      have h3 := hI.slotsFree
      have h4 := hI.holdLe
      omega
    rcases hex with ⟨i, hff⟩
    rcases firstFree_spec s.slots i hff with ⟨hfi, hprev⟩
    refine ⟨i, hff, hfi, hprev, ?_⟩
    have hstep : stepFn s (Ev.start n) = some { s with pending := s.pending.erase n, slots := s.slots.set i true, holding := s.holding ++ [(n, i)] } := by
      simp only [stepFn]
      rw [if_pos hn, hff]
    refine ⟨_, hstep, rfl, ?_⟩
    show (n, i) ∈ s.holding ++ [(n, i)]
    exact List.mem_append.mpr (Or.inr (List.mem_singleton.mpr rfl))
  · intro n i msg hmem hb
    have hfind : s.holding.find? (fun q => decide (q.1 = n)) = some (n, i) :=
      holdFind_of_mem_nodup hI.holdNodup hmem
    have hstep : stepFn s (Ev.finishDone n msg) = some { doneMid s n msg with slots := (doneMid s n msg).slots.set i false, holding := dropHold (doneMid s n msg).holding n } := by
      simp only [stepFn, hfind]
      rw [if_pos hb, updateItem_done hb msg]
    refine ⟨_, hstep, ?_, ?_⟩
    · show (doneMid s n msg).slots.set i false = s.slots.set i false
      rfl
    · show ((doneMid s n msg).slots.set i false)[i]? = some false
      have hm : (doneMid s n msg).slots = s.slots := rfl
      rw [hm]
      have hv := hI.holdIdxValid (n, i) hmem
      exact List.getElem?_set_self (getElem?_some_lt hv)
  · intro n i msg hmem hb
    have hfind : s.holding.find? (fun q => decide (q.1 = n)) = some (n, i) :=
      holdFind_of_mem_nodup hI.holdNodup hmem
    have hv := hI.holdIdxValid (n, i) hmem
    have hlt : i < s.slots.length := getElem?_some_lt hv
    have hstep : stepFn s (Ev.finishFailed n msg) = some { failMid s n msg with slots := (failMid s n msg).slots ++ [false], holding := dropHold (failMid s n msg).holding n } := by
      simp only [stepFn, hfind]
      rw [if_pos hb, updateItem_failed s n msg]
    have hm : (failMid s n msg).slots = s.slots := rfl
    refine ⟨_, hstep, ?_, ?_, ?_, ?_⟩
    · show (failMid s n msg).slots ++ [false] = s.slots ++ [false]
      rw [hm]
    · show ((failMid s n msg).slots ++ [false])[i]? = some true
      rw [hm, List.getElem?_append_left hlt]
      exact hv
    · show ((failMid s n msg).slots ++ [false]).length = s.slots.length + 1
      rw [hm]
      simp
    · show ((failMid s n msg).slots ++ [false])[s.slots.length]? = some false
      rw [hm, List.getElem?_append_right (Nat.le_refl _)]
      simp
  · intro n i hmem hb
    have hfind : s.holding.find? (fun q => decide (q.1 = n)) = some (n, i) :=
      holdFind_of_mem_nodup hI.holdNodup hmem
    have hv := hI.holdIdxValid (n, i) hmem
    have hlt : i < s.slots.length := getElem?_some_lt hv
    have hstep : stepFn s (Ev.finishStuck n) = some { stuckMid s n with slots := (stuckMid s n).slots ++ [false], holding := dropHold (stuckMid s n).holding n } := by
      simp only [stepFn, hfind]
      rw [if_pos hb]
      rfl
    have hm : (stuckMid s n).slots = s.slots := rfl
    refine ⟨_, hstep, ?_, ?_, ?_, ?_⟩
    · show (stuckMid s n).slots ++ [false] = s.slots ++ [false]
      rw [hm]
    · show ((stuckMid s n).slots ++ [false])[i]? = some true
      rw [hm, List.getElem?_append_left hlt]
      exact hv
    · show ((stuckMid s n).slots ++ [false]).length = s.slots.length + 1
      rw [hm]
      simp
    · show ((stuckMid s n).slots ++ [false])[s.slots.length]? = some false
      rw [hm, List.getElem?_append_right (Nat.le_refl _)]
      simp
  · intro i ht hu evs s2 hrun
    exact retired_persists evs s s2 hrun ht hu

/-- C4: evaluation of the code at the failing input.  Batch a, b, c with b
building after a and parallel_jobs 1; the build of a fails.  The run ends
normally (no pending or holding task remains, so `do_build` returns), a is
FAILED, and its dependent b stays WAITING with a status naming a — but c,
which does not depend on a, is left READY forever and never reaches DONE,
because the FAILED `update_item` call does not re-run the promotion scan
(line 186 evaluates `state == (State.DONE or ...)` as `state == State.DONE`).
This contradicts the claim that items with no dependency on the failed item
still reach DONE. -/
theorem claim_C4_failure_isolation_bug :
    c4Run = some c4Final ∧
      stateOf c4Final "a" = BState.failed ∧
      stateOf c4Final "b" = BState.waiting ∧
      statusOf c4Final "b" = waitingMsg ["a"] ∧
      stateOf c4Final "c" = BState.ready ∧
      stateOf c4Final "c" ≠ BState.done ∧
      c4Final.pending = [] ∧ c4Final.holding = [] := by
  refine ⟨by decide, by decide, by decide, by decide, by decide, by decide, rfl, rfl⟩

/-- C5: evaluation of line 186 of `update_item`.  The Python expression
`state == (State.DONE or state == State.FAILED) and state != item.state`
evaluates its parenthesized group to `State.DONE`, so `need_update` is false
for every FAILED transition: a terminal FAILED `update_item` call does not
re-run the promotion scan, contradicting the claim that every terminal state
change does.  On `c5State`, the FAILED finish of a leaves READY item c
unlaunched, while the scan the claim expects would have launched it. -/
theorem claim_C5_need_update_failed_bug :
    needUpdate (some BState.failed) BState.building = false ∧
      needUpdate (some BState.done) BState.building = true ∧
      (updateItem c5State "a" (some BState.failed) (some "boom")).pending = [] ∧
      (updateRunningItems (failMid c5State "a" "boom")).pending = ["c"] := by
  refine ⟨by decide, by decide, by decide, by decide⟩

/-! ### Witnesses -/

theorem claim_C1_witness :
    (⟨"b", BState.building, "Ready"⟩ : BuildItem) ∈ wDone.items ∧
      findItem wDone.items "a" = some ⟨"a", BState.done, "ok"⟩ ∧
      (⟨"a", BState.done, "ok"⟩ : BuildItem).state = BState.done :=
  ⟨by decide, by decide,
    @claim_C1_dependency_ordering wBA 1 ["a", "b"] wDone
      ⟨"b", BState.building, "Ready"⟩ ⟨"a", BState.done, "ok"⟩ "a"
      (by decide) ⟨wDoneTrace, by decide⟩ (by decide) rfl (by decide) (by decide)⟩

theorem claim_C3_witness : numBuilding wDone.items ≤ wDone.parallelJobs :=
  @claim_C3_bounded_parallelism wBA 1 ["a", "b"] wDone
    (by decide) ⟨wDoneTrace, by decide⟩

theorem claim_C6_witness :
    (∃ s2, stepFn wHold (Ev.finishFailed "a" "boom") = some s2 ∧
        s2.slots = wHold.slots ++ [false] ∧ s2.slots[0]? = some true ∧
        s2.slots.length = wHold.slots.length + 1 ∧
        s2.slots[wHold.slots.length]? = some false) ∧
      (∃ s2, stepFn wHold (Ev.finishStuck "a") = some s2 ∧
        s2.slots = wHold.slots ++ [false] ∧ s2.slots[0]? = some true ∧
        s2.slots.length = wHold.slots.length + 1 ∧
        s2.slots[wHold.slots.length]? = some false) :=
  ⟨(@claim_C6_slot_lifecycle wBA 1 ["a", "b"] wHold
        (by decide) ⟨wHoldTrace, by decide⟩).2.2.1
      "a" 0 "boom" (by decide) (by decide),
    (@claim_C6_slot_lifecycle wBA 1 ["a", "b"] wHold
        (by decide) ⟨wHoldTrace, by decide⟩).2.2.2.1
      "a" 0 (by decide) (by decide)⟩

theorem claim_C7_witness :
    ∃ s2, stepFn wHold (Ev.finishStuck "a") = some s2 ∧
      stateOf s2 "a" = BState.failed ∧
      statusOf s2 "a" = "Build method exited in RUNNING state" :=
  claim_C7_stuck_conversion
    (show wHold.holding.find? (fun q => decide (q.1 = "a")) = some ("a", 0) by decide)
    (by decide)

theorem claim_C10_witness :
    wDone.holding.length ≤ 1 ∧
      countFalse wDone.slots = 1 - wDone.holding.length ∧
      (wDone.pending ≠ [] → ∃ i, firstFree wDone.slots = some i) :=
  @claim_C10_slot_available wBA 1 ["a", "b"] wDone
    (by decide) ⟨wDoneTrace, by decide⟩

/-! ### Cycle detection lemmas -/

theorem baEdge_fst {ba : List (String × List String)} {a b : String}
    (h : baEdge ba a b = true) : a ∈ baNodes ba := by
  unfold baEdge at h
  rcases List.any_eq_true.mp h with ⟨p, hp, hpa⟩
  rw [Bool.and_eq_true] at hpa
  have ha : p.1 = a := by simpa using hpa.1
  apply List.mem_append_left
  rw [← ha]
  exact List.mem_map_of_mem (fun p => p.1) hp

theorem baEdge_snd {ba : List (String × List String)} {a b : String}
    (h : baEdge ba a b = true) : b ∈ baNodes ba := by
  unfold baEdge at h
  rcases List.any_eq_true.mp h with ⟨p, hp, hpa⟩
  rw [Bool.and_eq_true] at hpa
  have hb : b ∈ p.2 := by simpa using hpa.2
  apply List.mem_append_right
  exact List.mem_flatMap.mpr ⟨p, hp, hb⟩

theorem pathUpTo_of_edge {ba : List (String × List String)} {a b : String}
    (h : baEdge ba a b = true) : ∀ n, pathUpTo ba n a b = true := by
  intro n
  cases n with
  | zero => exact h
  | succ m =>
      unfold pathUpTo
      rw [h]
      rfl

/-- Bounded path search is monotone in the fuel. -/
theorem pathUpTo_mono {ba : List (String × List String)} :
    ∀ {n m : Nat} {a b : String}, pathUpTo ba n a b = true → n ≤ m →
      pathUpTo ba m a b = true := by
  intro n
  induction n with
  | zero => intro m a b h _; exact pathUpTo_of_edge h m
  | succ k ih =>
      intro m a b h hle
      cases m with
      | zero => cases hle
      | succ m2 =>
          unfold pathUpTo at h ⊢
          rw [Bool.or_eq_true] at h ⊢
          rcases h with h1 | h2
          · rw [h1]
            exact Or.inl rfl
          · right
            rcases List.any_eq_true.mp h2 with ⟨c, hc, hca⟩
            rw [Bool.and_eq_true] at hca
            refine List.any_eq_true.mpr ⟨c, hc, ?_⟩
            rw [Bool.and_eq_true]
            exact ⟨hca.1, ih hca.2 (Nat.le_of_succ_le_succ hle)⟩

/-- Soundness of the bounded path search with respect to the transitive
closure of the edge relation. -/
theorem pathUpTo_sound {ba : List (String × List String)} :
    ∀ {n : Nat} {a b : String}, pathUpTo ba n a b = true →
      Relation.TransGen (EdgeRel ba) a b := by
  intro n
  induction n with
  | zero => intro a b h; exact Relation.TransGen.single h
  | succ k ih =>
      intro a b h
      unfold pathUpTo at h
      rw [Bool.or_eq_true] at h
      rcases h with h1 | h2
      · exact Relation.TransGen.single h1
      · rcases List.any_eq_true.mp h2 with ⟨c, _, hca⟩
        rw [Bool.and_eq_true] at hca
        exact Relation.TransGen.head hca.1 (ih hca.2)

/-- A transitive-closure path yields a bounded path for some fuel. -/
theorem transGen_to_path {ba : List (String × List String)} {a b : String}
    (h : Relation.TransGen (EdgeRel ba) a b) :
    ∃ n, pathUpTo ba n a b = true := by
  induction h using Relation.TransGen.head_induction_on with
  | base hr => exact ⟨0, hr⟩
  | ih hr _ hp =>
      rcases hp with ⟨n, hn⟩
      refine ⟨n + 1, ?_⟩
      unfold pathUpTo
      rw [Bool.or_eq_true]
      right
      refine List.any_eq_true.mpr ⟨_, baEdge_snd hr, ?_⟩
      rw [Bool.and_eq_true]
      exact ⟨hr, hn⟩

/-- The source of any transitive-closure path is a graph node. -/
theorem transGen_src_mem {ba : List (String × List String)} {a b : String}
    (h : Relation.TransGen (EdgeRel ba) a b) : a ∈ baNodes ba := by
  induction h using Relation.TransGen.head_induction_on with
  | base hr => exact baEdge_fst hr
  | ih hr _ _ => exact baEdge_fst hr

/-- Decompose a bounded path into an explicit chain of intermediates drawn
from the node list. -/
theorem path_to_chain {ba : List (String × List String)} {b : String} :
    ∀ {n : Nat} {a : String}, pathUpTo ba n a b = true →
      ∃ l, l.length ≤ n ∧ l ⊆ baNodes ba ∧ chainPath ba b a l = true := by
  intro n
  induction n with
  | zero =>
      intro a h
      exact ⟨[], Nat.le_refl 0, List.nil_subset _, h⟩
  | succ k ih =>
      intro a h
      unfold pathUpTo at h
      rw [Bool.or_eq_true] at h
      rcases h with h1 | h2
      · exact ⟨[], Nat.zero_le _, List.nil_subset _, h1⟩
      · rcases List.any_eq_true.mp h2 with ⟨c, hc, hca⟩
        rw [Bool.and_eq_true] at hca
        rcases hca with ⟨he, hpc⟩
        rcases ih hpc with ⟨l, hlen, hsub, hchain⟩
        refine ⟨c :: l, Nat.succ_le_succ hlen, ?_, ?_⟩
        · intro x hx
          rcases List.mem_cons.mp hx with rfl | hx2
          · exact hc
          · exact hsub hx2
        · unfold chainPath
          rw [he, hchain]
          rfl

/-- Rebuild a bounded path from a chain of intermediates drawn from the node
list. -/
theorem chain_to_path {ba : List (String × List String)} {b : String} :
    ∀ (l : List String) {a : String} {n : Nat}, l ⊆ baNodes ba →
      l.length ≤ n → chainPath ba b a l = true → pathUpTo ba n a b = true := by
  intro l
  induction l with
  | nil => intro a n _ _ h; exact pathUpTo_of_edge h n
  | cons c rest ih =>
      intro a n hsub hlen h
      unfold chainPath at h
      rw [Bool.and_eq_true] at h
      rcases h with ⟨he, hchain⟩
      cases n with
      | zero => cases hlen
      | succ m =>
          unfold pathUpTo
          rw [Bool.or_eq_true]
          right
          apply List.any_eq_true.mpr
          refine ⟨c, hsub (List.mem_cons_self c rest), ?_⟩
          rw [Bool.and_eq_true]
          refine ⟨he, ?_⟩
          exact ih (fun x hx => hsub (List.mem_cons_of_mem c hx))
            (Nat.le_of_succ_le_succ hlen) hchain

/-- Drop the loop part of a chain that revisits a node. -/
theorem chain_split_right {ba : List (String × List String)} {b c : String}
    {v : List String} :
    ∀ (u : List String) (x : String), chainPath ba b x (u ++ c :: v) = true →
      chainPath ba b c v = true := by
  intro u
  induction u with
  | nil =>
      intro x h
      rw [List.nil_append] at h
      unfold chainPath at h
      rw [Bool.and_eq_true] at h
      exact h.2
  | cons d u2 ih =>
      intro x h
      rw [List.cons_append] at h
      unfold chainPath at h
      rw [Bool.and_eq_true] at h
      exact ih d h.2

/-- Every chain can be shortened to a duplicate-free chain over a subset of
its nodes. -/
theorem chain_dedup {ba : List (String × List String)} {b : String} :
    ∀ (l : List String) (a : String), chainPath ba b a l = true →
      ∃ l2, chainPath ba b a l2 = true ∧ l2.Nodup ∧ l2 ⊆ l := by
  intro l
  induction l with
  | nil => intro a h; exact ⟨[], h, List.nodup_nil, List.nil_subset _⟩
  | cons c rest ih =>
      intro a h
      unfold chainPath at h
      rw [Bool.and_eq_true] at h
      rcases h with ⟨he, hchain⟩
      rcases ih c hchain with ⟨r2, hchain2, hnodup2, hsub2⟩
      by_cases hc : c ∈ r2
      · rcases List.append_of_mem hc with ⟨u, v, rfl⟩
        have hcv : chainPath ba b c v = true := chain_split_right u c hchain2
        have hnodupcv : (c :: v).Nodup := hnodup2.of_append_right
        refine ⟨c :: v, ?_, hnodupcv, ?_⟩
        · unfold chainPath
          rw [he, hcv]
          rfl
        · intro x hx
          rcases List.mem_cons.mp hx with rfl | hx2
          · exact List.mem_cons_self x rest
          · exact List.mem_cons_of_mem c
              (hsub2 (List.mem_append_right u (List.mem_cons_of_mem c hx2)))
      · refine ⟨c :: r2, ?_, List.nodup_cons.mpr ⟨hc, hnodup2⟩, ?_⟩
        · unfold chainPath
          rw [he, hchain2]
          rfl
        · intro x hx
          rcases List.mem_cons.mp hx with rfl | hx2
          · exact List.mem_cons_self x rest
          · exact List.mem_cons_of_mem c (hsub2 hx2)

/-- Completeness of the cycle decision procedure: any directed cycle in the
build_after graph is detected. -/
theorem transGen_hasCycleB {ba : List (String × List String)}
    (h : ∃ v, Relation.TransGen (EdgeRel ba) v v) : hasCycleB ba = true := by
  rcases h with ⟨v, hv⟩
  rcases transGen_to_path hv with ⟨n, hp⟩
  rcases path_to_chain hp with ⟨l, _, hsub, hchain⟩
  rcases chain_dedup l v hchain with ⟨l2, hchain2, hnodup2, hsub2⟩
  have hsub3 : l2 ⊆ baNodes ba := fun x hx => hsub (hsub2 hx)
  have hlen : l2.length ≤ (baNodes ba).length :=
    (hnodup2.subperm hsub3).length_le
  unfold hasCycleB
  apply List.any_eq_true.mpr
  exact ⟨v, transGen_src_mem hv, chain_to_path l2 hsub3 hlen hchain2⟩

/-- Soundness of the cycle decision procedure: a detected cycle is a real
directed cycle. -/
theorem hasCycleB_transGen {ba : List (String × List String)}
    (h : hasCycleB ba = true) : ∃ v, Relation.TransGen (EdgeRel ba) v v := by
  unfold hasCycleB at h
  rcases List.any_eq_true.mp h with ⟨v, _, hp⟩
  exact ⟨v, pathUpTo_sound hp⟩

/-- C2: the cycle gate.  With at least two packages, a directed cycle in the
build_after graph makes `check_for_cycles` raise, and then
`_compute_build_order` propagates the error instead of returning a mapping to
hand to the scheduler; an acyclic graph passes.  The collection loop keeps at
most 25 cycles, at most 5 are printed, and every printed cycle is no longer
than any collected cycle left unprinted. -/
theorem claim_C2_cycle_gate (ba : List (String × List String))
    (h2 : 2 ≤ ba.length) :
    ((∃ v, Relation.TransGen (EdgeRel ba) v v) →
        checkForCycles ba
            = Except.error "Cannot determine build order because of cycles" ∧
          computeBuildOrder ba
            = Except.error "Cannot determine build order because of cycles") ∧
      ((¬ ∃ v, Relation.TransGen (EdgeRel ba) v v) →
        checkForCycles ba = Except.ok () ∧ computeBuildOrder ba = Except.ok ba) ∧
      (∀ cs : List (List String),
        (collectCycles cs).length ≤ 25 ∧ (printedCycles cs).length ≤ 5 ∧
          ∀ c ∈ printedCycles cs,
            ∀ d ∈ ((collectCycles cs).mergeSort
                (fun x y => decide (x.length ≤ y.length))).drop 5,
              c.length ≤ d.length) := by
  have hne1 : ¬ ba.length = 1 := by omega
  refine ⟨?_, ?_, ?_⟩
  · intro hcyc
    have hchk : checkForCycles ba
        = Except.error "Cannot determine build order because of cycles" := by
      unfold checkForCycles
      rw [if_neg hne1, transGen_hasCycleB hcyc]
      rfl
    exact ⟨hchk, by unfold computeBuildOrder; rw [hchk]; rfl⟩
  · intro hcyc
    have hfalse : hasCycleB ba = false := by
      cases hb : hasCycleB ba
      · rfl
      · exact absurd (hasCycleB_transGen hb) hcyc
    have hchk : checkForCycles ba = Except.ok () := by
      unfold checkForCycles
      rw [if_neg hne1, hfalse]
      rfl
    exact ⟨hchk, by unfold computeBuildOrder; rw [hchk]; rfl⟩
  · intro cs
    refine ⟨List.length_take_le 25 cs, List.length_take_le 5 _, ?_⟩
    intro c hc d hd
    have hsorted := @List.sorted_mergeSort (List String)
      (fun x y => decide (x.length ≤ y.length))
      (fun x y z hxy hyz => decide_eq_true
        (Nat.le_trans (of_decide_eq_true hxy) (of_decide_eq_true hyz)))
      (fun x y => by
        rcases Nat.le_total x.length y.length with h | h
        · simp [h]
        · simp [h])
      (collectCycles cs)
    rw [← List.take_append_drop 5 ((collectCycles cs).mergeSort
      (fun x y => decide (x.length ≤ y.length)))] at hsorted
    have hcd := (List.pairwise_append.mp hsorted).2.2
    exact of_decide_eq_true (hcd c hc d hd)

theorem claim_C2_witness :
    checkForCycles [("a", ["b"]), ("b", ["a"])]
        = Except.error "Cannot determine build order because of cycles" ∧
      computeBuildOrder [("a", ["b"]), ("b", ["a"])]
        = Except.error "Cannot determine build order because of cycles" :=
  (claim_C2_cycle_gate [("a", ["b"]), ("b", ["a"])] (by decide)).1
    ⟨"a", @Relation.TransGen.head String
      (EdgeRel [("a", ["b"]), ("b", ["a"])]) "a" "b" "a"
      (by unfold EdgeRel; decide)
      (Relation.TransGen.single (by unfold EdgeRel; decide))⟩

/-- C9: `check_for_cycles` on a single-package batch returns without raising,
whatever the build-after set of that package is — in particular when it
contains the package itself (lines 57-61 return before any graph is built). -/
theorem claim_C9_single_package (p : String) (after : List String) :
    checkForCycles [(p, after)] = Except.ok () := rfl

theorem claim_C9_witness : checkForCycles [("a", ["a"])] = Except.ok () :=
  claim_C9_single_package "a" ["a"]

/-! ### RepoWaiter lemmas -/

/-- The waiting loop only completes on an event at or past the threshold. -/
theorem waitLoop_ge {event : Int} :
    ∀ (polls : List Int) (last e : Int),
      waitLoop event last polls = some e → event ≤ e := by
  intro polls
  induction polls with
  | nil => intro last e h; cases h
  | cons pp rest ih =>
      intro last e h
      unfold waitLoop at h
      by_cases hne : pp ≠ last
      · rw [if_pos hne] at h
        by_cases hge : event ≤ pp
        · rw [if_pos hge] at h
          cases h
          exact hge
        · rw [if_neg hge] at h
          exact ih pp e h
      · rw [if_neg hne] at h
        exact ih last e h

/-- The waiting loop only completes on a polled event. -/
theorem waitLoop_mem {event : Int} :
    ∀ (polls : List Int) (last e : Int),
      waitLoop event last polls = some e → e ∈ polls := by
  intro polls
  induction polls with
  | nil => intro last e h; cases h
  | cons pp rest ih =>
      intro last e h
      unfold waitLoop at h
      by_cases hne : pp ≠ last
      · rw [if_pos hne] at h
        by_cases hge : event ≤ pp
        · rw [if_pos hge] at h
          cases h
          exact List.mem_cons_self pp rest
        · rw [if_neg hge] at h
          exact List.mem_cons_of_mem pp (ih pp e h)
      · rw [if_neg hne] at h
        exact List.mem_cons_of_mem pp (ih last e h)

/-- The waiting loop never completes while every polled event is below the
threshold. -/
theorem waitLoop_none {event : Int} :
    ∀ (polls : List Int) (last : Int), (∀ pp ∈ polls, pp < event) →
      waitLoop event last polls = none := by
  intro polls
  induction polls with
  | nil => intro last _; rfl
  | cons pp rest ih =>
      intro last hlt
      unfold waitLoop
      have hpp : pp < event := hlt pp (List.mem_cons_self pp rest)
      by_cases hne : pp ≠ last
      · rw [if_pos hne, if_neg (by omega)]
        exact ih pp (fun x hx => hlt x (List.mem_cons_of_mem pp hx))
      · rw [if_neg hne]
        exact ih last (fun x hx => hlt x (List.mem_cons_of_mem pp hx))

/-- C8: `RepoWaiter.wait_for_event` is monotonic.  It completes at once, on
the last observed event, when that event already reaches the threshold; any
event it completes on is at or past the threshold, and is the last observed
event or an observed poll; and while the last event and every polled event
are below the threshold it keeps waiting. -/
theorem claim_C8_repo_wait_monotonic :
    (∀ (last event : Int) (polls : List Int), event ≤ last →
        waitForEvent last event polls = some last) ∧
      (∀ (last event : Int) (polls : List Int) (e : Int),
        waitForEvent last event polls = some e → event ≤ e) ∧
      (∀ (last event : Int) (polls : List Int) (e : Int),
        waitForEvent last event polls = some e → e = last ∨ e ∈ polls) ∧
      (∀ (last event : Int) (polls : List Int), last < event →
        (∀ pp ∈ polls, pp < event) → waitForEvent last event polls = none) := by
  have hsound : ∀ (last event : Int) (polls : List Int) (e : Int),
      waitForEvent last event polls = some e → event ≤ e := by
    intro last event polls e h
    unfold waitForEvent at h
    by_cases hlt : last < event
    · rw [if_pos hlt] at h
      exact waitLoop_ge polls last e h
    · rw [if_neg hlt] at h
      cases h
      omega
  refine ⟨?_, hsound, ?_, ?_⟩
  · intro last event polls hle
    unfold waitForEvent
    rw [if_neg (by omega)]
  · intro last event polls e h
    unfold waitForEvent at h
    by_cases hlt : last < event
    · rw [if_pos hlt] at h
      exact Or.inr (waitLoop_mem polls last e h)
    · rw [if_neg hlt] at h
      cases h
      exact Or.inl rfl
  · intro last event polls hlt hall
    unfold waitForEvent
    rw [if_pos hlt]
    exact waitLoop_none polls last hall

theorem claim_C8_witness :
    waitForEvent 11 10 [] = some 11 ∧
      (10 : Int) ≤ 11 ∧
      waitForEvent 8 10 [9, 9] = none :=
  ⟨claim_C8_repo_wait_monotonic.1 11 10 [] (by decide),
    claim_C8_repo_wait_monotonic.2.1 8 10 [8, 9, 11] 11 (by decide),
    claim_C8_repo_wait_monotonic.2.2.2 8 10 [9, 9] (by decide)
      (by intro pp hpp; simp only [List.mem_cons, List.not_mem_nil, or_false] at hpp; rcases hpp with rfl | rfl <;> omega)⟩

end FMT
